import Mathlib

/-!
# Tree building: a shallow embedding of `tree-building/tree.go`

The Go package turns a flat slice of `Record{ID, Parent}` into a tree of
`Node{ID, Children}`.  This file embeds the package function by function and
proves properties of the embedding.

Modelling decisions.

* The IDs are Go `int` values that are only ever compared, and the two counts
  (`len(r) - 1` and the counter of `hasDuplicatesIn`) are bounded by the slice
  length, so `Int` is an exact model of the 64-bit integers of the source.
* A `*Node` is owned by exactly one parent (it is created by `newNode` and
  appended once), so the pointer graph is a tree and `Node` is an inductive
  type.  The in-place mutation of `parent.Children` becomes the node returned
  next to the result.
* `errors.New(msg)` becomes a constructor of `BuildError`; `BuildError.message`
  gives the text of the source.
* `sort.Slice` orders by the `less` function it is given and does not promise
  an order among elements that compare equal.  It is modelled by insertion
  sort, which is the algorithm the Go runtime runs on short slices;
  `buildSorted_sortRecords` shows that every other ID-sorted arrangement of
  the input leads to the same result.
* `marshalChildren` is recursive on a shrinking candidate slice.  The
  embedding recurses on a fuel counter; `none` means the fuel ran out, and
  `marshalChildrenFuel_total` shows it never does for the fuel `marshalChildren`
  supplies.  `marshalChildrenFuel_fuel_irrelevant` shows that the amount of
  fuel does not show in the result, and `marshalChildren_unfold` that the
  embedding satisfies the recursive definition of the source.
-/

namespace TreeBuilding

/-- The record to tree-ify (`type Record struct`). -/
structure Record where
  ID : Int
  Parent : Int
deriving DecidableEq

/-- The resultant object (`type Node struct`). -/
inductive Node where
  | mk (ID : Int) (Children : List Node) : Node

/-- Field `ID` of a node. -/
def Node.ID : Node → Int
  | .mk i _ => i

/-- Field `Children` of a node. -/
def Node.Children : Node → List Node
  | .mk _ c => c

/-- The errors `errors.New` creates in the package, one constructor per message. -/
inductive BuildError where
  | duplicates
  | invalidParent
  | invalidParentPidCid
  | nonContiguous
  | rootCardinality
  | rootNotZero
  | orphans
deriving DecidableEq

/-- The message text of each error of the source. -/
def BuildError.message : BuildError → String
  | .duplicates => "duplicates detected"
  | .invalidParent => "invalid parent id detected"
  | .invalidParentPidCid => "invalid parent id detected; pid > cid"
  | .nonContiguous => "non contiguous ids detected"
  | .rootCardinality => "records must have exactly 1 parent Record where ID == Parent"
  | .rootNotZero => "records must have exactly 1 parent Record where ID == 0"
  | .orphans => "detected orphans"

/-- Function `sortRecords`: `sort.Slice` with `less i j := r[i].ID < r[j].ID`. -/
def sortRecords (r : List Record) : List Record :=
  r.insertionSort (fun a b => a.ID ≤ b.ID)

/-- Method `Node.sortChildren`: `sort.Slice` on the children with
`less i j := Children[i].ID < Children[j].ID`. -/
def Node.sortChildren (n : Node) : Node :=
  .mk n.ID (n.Children.insertionSort (fun a b => a.ID ≤ b.ID))

/-- Function `where`: splits a slice into the records that pass `test` and the rest, both in
their original order. -/
def where_ (r : List Record) (test : Record → Bool) : List Record × List Record :=
  r.foldl (fun acc s => if test s then (acc.1 ++ [s], acc.2) else (acc.1, acc.2 ++ [s])) ([], [])

/-- Method `Record.hasDuplicatesIn`: more than one element of `other` carries the ID of `r`. -/
def Record.hasDuplicatesIn (r : Record) (other : List Record) : Bool :=
  let rID := r.ID
  decide (other.foldl (fun sum elem => if elem.ID = rID then sum + 1 else sum) (0 : Int) > 1)

/-- Function `newNode`: a node with the ID of the record and no children. -/
def newNode (r : Record) : Node :=
  .mk r.ID []

/-- What a call of `marshalChildren` leaves behind: the parent node as mutated by the
call, and either the unattached records (`remainderChildren, nil`) or the error
(`nil, err`). -/
abbrev MarshalResult := Node × Except BuildError (List Record)

/-- The `for _, child := range *potentialChildren` loop of `marshalChildren`.
`recur` is the recursive call, `matched` the whole slice being ranged over, the list
argument the iterations still to run, `children` the value of `parent.Children` and
`rem` the value of `remainderChildren`. -/
def childLoop (recur : Node → List Record → Option MarshalResult) (parentID : Int)
    (matched : List Record) :
    List Record → List Node → List Record →
      Option (List Node × Except BuildError (List Record))
  | [], children, rem => some (children, .ok rem)
  | child :: rest, children, rem =>
    if child.hasDuplicatesIn matched then some (children, .error .duplicates)
    else if parentID > child.ID then some (children, .error .invalidParent)
    else if child.Parent > child.ID then some (children, .error .invalidParentPidCid)
    else
      let nodeToAdd := newNode child
      if rem.length > 0 then
        match recur nodeToAdd rem with
        | none => none
        | some (n, .error err) => some (children ++ [n], .error err)
        | some (n, .ok rem1) => childLoop recur parentID matched rest (children ++ [n]) rem1
      else childLoop recur parentID matched rest (children ++ [nodeToAdd]) rem

/-- Function `marshalChildren` with a bound on the recursion depth; `none` when the bound is
reached. -/
def marshalChildrenFuel : Nat → Node → List Record → Option MarshalResult
  | 0, _, _ => none
  | fuel + 1, parent, potentialChildren =>
    let split := where_ potentialChildren (fun r => r.Parent == parent.ID)
    match childLoop (marshalChildrenFuel fuel) parent.ID split.1 split.1 parent.Children
        split.2 with
    | none => none
    | some (children, .error err) => some (.mk parent.ID children, .error err)
    | some (children, .ok rem) => some ((Node.mk parent.ID children).sortChildren, .ok rem)

/-- Function `marshalChildren`: every recursive call is on a strictly shorter slice, so a fuel
of one more than the number of candidates is never used up. -/
def marshalChildren (parent : Node) (potentialChildren : List Record) :
    Option MarshalResult :=
  marshalChildrenFuel (potentialChildren.length + 1) parent potentialChildren

/-- The part of `Build` that follows `sortRecords(r)`, on the sorted slice. -/
def buildSorted (r : List Record) : Option (Option Node × Option BuildError) :=
  if (r.getLast?.map Record.ID) ≠ some ((r.length : Int) - 1) then
    some (none, some .nonContiguous)
  else
    let split := where_ r (fun r => r.ID == r.Parent)
    match split.1 with
    | [root] =>
      let parentRecord := newNode root
      if parentRecord.ID ≠ 0 then some (none, some .rootNotZero)
      else
        match marshalChildren parentRecord.sortChildren split.2 with
        | none => none
        | some (node, .ok finalRemainder) =>
          if finalRemainder.length > 0 then some (none, some .orphans)
          else some (some node, none)
        | some (node, .error err) => some (some node, some err)
    | _ => some (none, some .rootCardinality)

/-- Function `Build`: the pair `(*Node, error)` the Go function returns, `none` standing for
`nil` in either place.  The outer `Option` is `none` only if the recursion bound of
`marshalChildren` were reached. -/
def Build (r : List Record) : Option (Option Node × Option BuildError) :=
  if r.length = 0 then some (none, none)
  else buildSorted (sortRecords r)

/-! ## Observations on trees used to state the properties -/

mutual
/-- Every node of the tree rooted at the argument, the root first, depth first. -/
def Node.nodes : Node → List Node
  | .mk i cs => .mk i cs :: nodesOf cs
/-- Every node of a forest, tree after tree. -/
def nodesOf : List Node → List Node
  | [] => []
  | c :: cs => c.nodes ++ nodesOf cs
end

/-- The pairs (child ID, parent ID) for the children of one node. -/
def Node.edgesAt (x : Node) : List Record :=
  x.Children.map (fun c => ⟨c.ID, x.ID⟩)

/-- The pairs (node ID, parent node ID) of every node of the tree but its root. -/
def Node.edges (t : Node) : List Record :=
  t.nodes.flatMap Node.edgesAt

/-- The pairs (node ID, parent node ID) of every node below the roots of a forest. -/
def edgesOf (l : List Node) : List Record :=
  (nodesOf l).flatMap Node.edgesAt

/-- The tree flattened into (node ID, parent node ID) pairs, the root paired with
itself. -/
def Node.flatten (t : Node) : List Record :=
  ⟨t.ID, t.ID⟩ :: t.edges

/-- The number of nodes of a tree. -/
def Node.size (t : Node) : Nat :=
  t.nodes.length

/-- A list of records is in ascending ID order. -/
def IDSorted (l : List Record) : Prop :=
  l.Sorted (fun a b => a.ID ≤ b.ID)

instance (l : List Record) : Decidable (IDSorted l) := by
  unfold IDSorted; infer_instance

/-- The runs of the loop of `marshalChildren` that end without error, as a relation:
`LoopOk matched pid pending rem kids out` says that ranging over `pending` (a tail of
`matched`) under a parent with ID `pid`, starting with the remainder `rem`, appends
the nodes `kids` and ends with the remainder `out`. -/
inductive LoopOk : List Record → Int → List Record → List Record → List Node →
    List Record → Prop where
  | done (matched pid rem) : LoopOk matched pid [] rem [] rem
  | leaf (matched pid child rest kids out) :
      child.hasDuplicatesIn matched = false → pid ≤ child.ID → child.Parent ≤ child.ID →
      LoopOk matched pid rest [] kids out →
      LoopOk matched pid (child :: rest) [] (newNode child :: kids) out
  | inner (matched pid child rest rem gkids rem1 kids out) :
      child.hasDuplicatesIn matched = false → pid ≤ child.ID → child.Parent ≤ child.ID →
      rem ≠ [] →
      LoopOk (rem.filter (fun r => r.Parent == child.ID)) child.ID
        (rem.filter (fun r => r.Parent == child.ID))
        (rem.filter (fun r => !(r.Parent == child.ID))) gkids rem1 →
      LoopOk matched pid rest rem1 kids out →
      LoopOk matched pid (child :: rest) rem
        (Node.mk child.ID (gkids.insertionSort (fun a b => a.ID ≤ b.ID)) :: kids) out

instance : IsTotal Record (fun a b => a.ID ≤ b.ID) := ⟨fun a b => le_total a.ID b.ID⟩
instance : IsTrans Record (fun a b => a.ID ≤ b.ID) := ⟨fun _ _ _ h1 h2 => le_trans h1 h2⟩
instance : IsTotal Node (fun a b => a.ID ≤ b.ID) := ⟨fun a b => le_total a.ID b.ID⟩
instance : IsTrans Node (fun a b => a.ID ≤ b.ID) := ⟨fun _ _ _ h1 h2 => le_trans h1 h2⟩

/-- The IDs of the records are exactly `0 .. n-1`, each once, for `n` the number of
records. -/
def ContiguousIDs (r : List Record) : Prop :=
  (r.map Record.ID).Perm ((List.range r.length).map Int.ofNat)

instance (r : List Record) : Decidable (ContiguousIDs r) := by
  unfold ContiguousIDs; infer_instance

/-- The valid inputs as the round-trip and reference-tree properties describe them: a
non-empty sequence whose IDs are exactly `0 .. n-1`, each once, whose record with ID 0
has Parent 0, and whose every other record has `Parent < ID`. -/
def ValidInput (r : List Record) : Prop :=
  r ≠ [] ∧ ContiguousIDs r ∧ (∀ x ∈ r, x.ID = 0 → x.Parent = 0) ∧
    (∀ x ∈ r, x.ID ≠ 0 → x.Parent < x.ID)

instance (r : List Record) : Decidable (ValidInput r) := by
  unfold ValidInput; infer_instance

/-- The IDs of the records `j` of `r` with `j.ID != i` and `j.Parent == i`, in ascending
order: the children the specification gives the node with ID `i`. -/
def childIDs (r : List Record) (i : Int) : List Int :=
  ((r.filter (fun j => j.ID != i && j.Parent == i)).map Record.ID).insertionSort (· ≤ ·)

/-- The reference tree of the specification below the node with ID `i`: its children
are the nodes for `childIDs r i`, recursively.  `depth` bounds the number of levels
that are expanded. -/
def referenceTree (r : List Record) : Nat → Int → Node
  | 0, i => .mk i []
  | depth + 1, i => .mk i ((childIDs r i).map (referenceTree r depth))

/-- Two runs agree: both reach the recursion bound, or both end with the same value and
the same error, or both end with the same value and with remainders that are ID-sorted
permutations of each other. -/
def SameRun {α : Type} (a b : Option (α × Except BuildError (List Record))) : Prop :=
  match a, b with
  | none, none => True
  | some (x, .error e1), some (y, .error e2) => x = y ∧ e1 = e2
  | some (x, .ok l1), some (y, .ok l2) => x = y ∧ l1.Perm l2 ∧ IDSorted l1 ∧ IDSorted l2
  | _, _ => False

/-- The largest ID among the records is `m`: some record carries it and none exceeds
it. -/
def IsLargestID (r : List Record) (m : Int) : Prop :=
  (∃ x ∈ r, x.ID = m) ∧ ∀ x ∈ r, x.ID ≤ m

instance (r : List Record) (m : Int) : Decidable (IsLargestID r m) := by
  unfold IsLargestID; infer_instance

/-- The recursive calls the loop of `marshalChildren` makes, in order, as pairs (node,
candidate sequence): the same walk as `childLoop`, keeping the arguments of each
`marshalChildren(nodeToAdd, remainderChildren)` instead of the result of the loop. -/
def childLoopCalls (recur : Node → List Record → Option MarshalResult) (parentID : Int)
    (matched : List Record) : List Record → List Record → List (Node × List Record)
  | [], _ => []
  | child :: rest, rem =>
    if child.hasDuplicatesIn matched then []
    else if parentID > child.ID then []
    else if child.Parent > child.ID then []
    else
      let nodeToAdd := newNode child
      if rem.length > 0 then
        (nodeToAdd, rem) ::
          (match recur nodeToAdd rem with
            | some (_, .ok rem1) => childLoopCalls recur parentID matched rest rem1
            | _ => [])
      else childLoopCalls recur parentID matched rest rem

/-- The recursive calls made directly by the invocation `marshalChildren(parent,
potentialChildren)`. -/
def recursiveCalls (parent : Node) (potentialChildren : List Record) :
    List (Node × List Record) :=
  let split := where_ potentialChildren (fun r => r.Parent == parent.ID)
  childLoopCalls (marshalChildrenFuel potentialChildren.length) parent.ID split.1 split.1
    split.2

/-! ## Elementary facts about the helpers -/

theorem where__eq (r : List Record) (test : Record → Bool) :
    where_ r test = (r.filter test, r.filter (fun s => !test s)) := by
  have key : ∀ (l a b : List Record),
      l.foldl (fun acc s => if test s then (acc.1 ++ [s], acc.2) else (acc.1, acc.2 ++ [s]))
        (a, b) = (a ++ l.filter test, b ++ l.filter (fun s => !test s)) := by
    intro l
    induction l with
    | nil => intro a b; simp
    | cons x xs ih =>
      intro a b
      cases hx : test x <;> simp [List.foldl_cons, hx, ih, List.filter_cons]
  simpa [where_] using key r [] []

theorem hasDuplicatesIn_eq (r : Record) (other : List Record) :
    r.hasDuplicatesIn other = decide (1 < other.countP (fun e => e.ID == r.ID)) := by
  have key : ∀ (l : List Record) (n : Int),
      l.foldl (fun sum elem => if elem.ID = r.ID then sum + 1 else sum) n
        = n + (l.countP (fun e => e.ID == r.ID) : Nat) := by
    intro l
    induction l with
    | nil => intro n; simp
    | cons x xs ih =>
      intro n
      by_cases hx : x.ID = r.ID
      · simp [List.foldl_cons, hx, ih, List.countP_cons]; ring
      · simp [List.foldl_cons, hx, ih, List.countP_cons]
  unfold Record.hasDuplicatesIn
  simp only [key, gt_iff_lt, zero_add]
  congr 1
  simp only [eq_iff_iff]
  omega

theorem childLoop_ok (recur : Node → List Record → Option MarshalResult)
    (hrec : ∀ p rem n L, recur p rem = some (n, .ok L) →
      ∃ gkids, LoopOk (rem.filter (fun r => r.Parent == p.ID)) p.ID
          (rem.filter (fun r => r.Parent == p.ID))
          (rem.filter (fun r => !(r.Parent == p.ID))) gkids L ∧
        n = Node.mk p.ID ((p.Children ++ gkids).insertionSort (fun a b => a.ID ≤ b.ID)))
    (pid : Int) (matched : List Record) :
    ∀ (pending : List Record) (children : List Node) (rem : List Record)
      (ch : List Node) (L : List Record),
      childLoop recur pid matched pending children rem = some (ch, .ok L) →
      ∃ kids, LoopOk matched pid pending rem kids L ∧ ch = children ++ kids := by
  intro pending
  induction pending with
  | nil =>
    intro children rem ch L h
    simp only [childLoop, Option.some.injEq, Prod.mk.injEq, Except.ok.injEq] at h
    obtain ⟨rfl, rfl⟩ := h
    exact ⟨[], LoopOk.done _ _ _, by simp⟩
  | cons child rest ih =>
    intro children rem ch L h
    rw [childLoop] at h
    by_cases h1 : child.hasDuplicatesIn matched = true
    · rw [if_pos h1] at h; exact absurd h (by simp)
    by_cases h2 : pid > child.ID
    · rw [if_neg h1, if_pos h2] at h; exact absurd h (by simp)
    by_cases h3 : child.Parent > child.ID
    · rw [if_neg h1, if_neg h2, if_pos h3] at h; exact absurd h (by simp)
    rw [if_neg h1, if_neg h2, if_neg h3] at h
    simp only at h
    by_cases h4 : rem.length > 0
    · rw [if_pos h4] at h
      split at h
      · exact absurd h (by simp)
      · exact absurd h (by simp)
      · next n rem1 hr =>
        obtain ⟨gkids, hg, rfl⟩ := hrec _ _ _ _ hr
        obtain ⟨kids, hk, rfl⟩ := ih _ _ _ _ h
        refine ⟨_, LoopOk.inner matched pid child rest rem gkids rem1 kids L
          (by simpa using h1) (by omega) (by omega) ?_ hg hk,
          by simp [newNode, Node.ID, Node.Children]⟩
        intro h0; simp [h0] at h4
    · rw [if_neg h4] at h
      have hrem : rem = [] := by
        cases rem with
        | nil => rfl
        | cons a b => simp at h4
      subst hrem
      obtain ⟨kids, hk, rfl⟩ := ih _ _ _ _ h
      exact ⟨_, LoopOk.leaf matched pid child rest kids L (by simpa using h1) (by omega)
        (by omega) hk, by simp⟩

theorem marshalChildrenFuel_ok : ∀ (fuel : Nat) (p : Node) (c : List Record) (n : Node)
    (L : List Record), marshalChildrenFuel fuel p c = some (n, .ok L) →
    ∃ kids, LoopOk (c.filter (fun r => r.Parent == p.ID)) p.ID
        (c.filter (fun r => r.Parent == p.ID))
        (c.filter (fun r => !(r.Parent == p.ID))) kids L ∧
      n = Node.mk p.ID ((p.Children ++ kids).insertionSort (fun a b => a.ID ≤ b.ID)) := by
  intro fuel
  induction fuel with
  | zero => intro p c n L h; simp [marshalChildrenFuel] at h
  | succ f ih =>
    intro p c n L h
    rw [marshalChildrenFuel, where__eq] at h
    simp only at h
    split at h
    · exact absurd h (by simp)
    · exact absurd h (by simp)
    · next ch rem hl =>
      obtain ⟨kids, hk, rfl⟩ := childLoop_ok _ ih _ _ _ _ _ _ _ hl
      simp only [Option.some.injEq, Prod.mk.injEq, Except.ok.injEq] at h
      obtain ⟨rfl, rfl⟩ := h
      exact ⟨kids, hk, by simp [Node.sortChildren, Node.ID, Node.Children]⟩

/-! ## Nodes and edges of trees and forests -/

theorem nodesOf_eq_flatMap (l : List Node) : nodesOf l = l.flatMap Node.nodes := by
  induction l with
  | nil => simp [nodesOf]
  | cons c cs ih => simp [nodesOf, ih]

theorem nodes_mk (i : Int) (cs : List Node) :
    (Node.mk i cs).nodes = Node.mk i cs :: nodesOf cs := by
  simp [Node.nodes]

theorem nodesOf_cons (c : Node) (cs : List Node) : nodesOf (c :: cs) = c.nodes ++ nodesOf cs := by
  simp [nodesOf]

theorem nodesOf_append (a b : List Node) : nodesOf (a ++ b) = nodesOf a ++ nodesOf b := by
  simp [nodesOf_eq_flatMap]

theorem nodesOf_perm {a b : List Node} (h : a.Perm b) : (nodesOf a).Perm (nodesOf b) := by
  simpa [nodesOf_eq_flatMap] using h.flatMap_right Node.nodes

theorem edges_mk (i : Int) (cs : List Node) :
    (Node.mk i cs).edges = cs.map (fun c => ⟨c.ID, i⟩) ++ edgesOf cs := by
  simp [Node.edges, edgesOf, nodes_mk, Node.edgesAt, Node.ID, Node.Children]

theorem edgesOf_nil : edgesOf [] = [] := by
  simp [edgesOf, nodesOf]

theorem edgesOf_cons (c : Node) (cs : List Node) : edgesOf (c :: cs) = c.edges ++ edgesOf cs := by
  simp [edgesOf, Node.edges, nodesOf_cons]

theorem edgesOf_append (a b : List Node) : edgesOf (a ++ b) = edgesOf a ++ edgesOf b := by
  simp [edgesOf, nodesOf_append]

theorem edgesOf_perm {a b : List Node} (h : a.Perm b) : (edgesOf a).Perm (edgesOf b) :=
  (nodesOf_perm h).flatMap_right _

theorem mem_nodes_self (t : Node) : t ∈ t.nodes := by
  cases t with
  | mk i cs => simp [nodes_mk]

/-! ## What a successful run of the loop guarantees -/

theorem LoopOk.sublist {matched : List Record} {pid : Int} {pending rem : List Record}
    {kids : List Node} {out : List Record} (h : LoopOk matched pid pending rem kids out) :
    out.Sublist rem := by
  induction h with
  | done => exact List.Sublist.refl _
  | leaf _ _ _ _ _ _ _ _ _ _ ih => exact ih
  | inner _ _ _ _ _ _ _ _ _ _ _ _ _ _ _ ih1 ih2 =>
    exact (ih2.trans ih1).trans (List.filter_sublist _)

theorem LoopOk.kids_ids {matched : List Record} {pid : Int} {pending rem : List Record}
    {kids : List Node} {out : List Record} (h : LoopOk matched pid pending rem kids out) :
    kids.map Node.ID = pending.map Record.ID := by
  induction h with
  | done => rfl
  | leaf _ _ _ _ _ _ _ _ _ _ ih => simp [ih, newNode, Node.ID]
  | inner _ _ _ _ _ _ _ _ _ _ _ _ _ _ _ _ ih2 => simp [ih2, Node.ID]

theorem LoopOk.checks {matched : List Record} {pid : Int} {pending rem : List Record}
    {kids : List Node} {out : List Record} (h : LoopOk matched pid pending rem kids out) :
    ∀ c ∈ pending, c.hasDuplicatesIn matched = false ∧ pid ≤ c.ID ∧ c.Parent ≤ c.ID := by
  induction h with
  | done => simp
  | leaf _ _ _ _ _ _ h1 h2 h3 _ ih =>
    intro c hc
    rcases List.mem_cons.1 hc with rfl | hc
    · exact ⟨h1, h2, h3⟩
    · exact ih c hc
  | inner _ _ _ _ _ _ _ _ _ h1 h2 h3 _ _ _ _ ih2 =>
    intro c hc
    rcases List.mem_cons.1 hc with rfl | hc
    · exact ⟨h1, h2, h3⟩
    · exact ih2 c hc

theorem map_edge_eq_of_ids {kids : List Node} {pending : List Record} {pid : Int}
    (hids : kids.map Node.ID = pending.map Record.ID)
    (hpar : ∀ c ∈ pending, c.Parent = pid) :
    kids.map (fun c => (⟨c.ID, pid⟩ : Record)) = pending := by
  induction kids generalizing pending with
  | nil =>
    cases pending with
    | nil => rfl
    | cons a b => simp at hids
  | cons k ks ih =>
    cases pending with
    | nil => simp at hids
    | cons a b =>
      simp only [List.map_cons, List.cons.injEq] at hids
      have ha := hpar a (List.mem_cons_self _ _)
      have := ih hids.2 (fun c hc => hpar c (List.mem_cons_of_mem _ hc))
      cases a with
      | mk ai ap =>
        simp only at ha hids
        simp [this, hids.1, ha]

theorem edges_sorted_node_perm {rem : List Record} {i : Int} {gkids : List Node}
    {out : List Record}
    (hg : LoopOk (rem.filter (fun r => r.Parent == i)) i (rem.filter (fun r => r.Parent == i))
      (rem.filter (fun r => !(r.Parent == i))) gkids out) :
    (Node.mk i (gkids.insertionSort (fun a b => a.ID ≤ b.ID))).edges.Perm
      (rem.filter (fun r => r.Parent == i) ++ edgesOf gkids) := by
  rw [edges_mk]
  have hs := List.perm_insertionSort (fun a b : Node => a.ID ≤ b.ID) gkids
  have h1 : (gkids.map (fun c => (⟨c.ID, i⟩ : Record))) = rem.filter (fun r => r.Parent == i) :=
    map_edge_eq_of_ids hg.kids_ids (by
      intro c hc
      simpa using (List.mem_filter.1 hc).2)
  exact List.Perm.append (h1 ▸ hs.map _) (edgesOf_perm hs)

theorem LoopOk.edges_perm {matched : List Record} {pid : Int} {pending rem : List Record}
    {kids : List Node} {out : List Record} (h : LoopOk matched pid pending rem kids out) :
    (edgesOf kids ++ out).Perm rem := by
  induction h with
  | done => simp [edgesOf_nil]
  | leaf matched pid child rest kids out _ _ _ _ ih =>
    simpa [edgesOf_cons, newNode, edges_mk, edgesOf_nil] using ih
  | inner matched pid child rest rem gkids rem1 kids out _ _ _ _ hg _ ih1 ih2 =>
    rw [edgesOf_cons, List.append_assoc]
    have hsplit := List.filter_append_perm (fun r : Record => r.Parent == child.ID) rem
    refine List.Perm.trans ?_ hsplit
    refine ((edges_sorted_node_perm hg).append ih2).trans ?_
    rw [List.append_assoc]
    exact List.Perm.append_left _ ih1

/-! ## The recursion bound is never reached -/

theorem marshalChildrenFuel_ok_length {fuel : Nat} {p : Node} {c : List Record} {n : Node}
    {L : List Record} (h : marshalChildrenFuel fuel p c = some (n, .ok L)) :
    L.length ≤ (c.filter (fun r => !(r.Parent == p.ID))).length := by
  obtain ⟨kids, hk, _⟩ := marshalChildrenFuel_ok _ _ _ _ _ h
  exact hk.sublist.length_le

theorem childLoop_total (recur : Node → List Record → Option MarshalResult) (f : Nat)
    (hrec : ∀ p c, c.length < f → ∃ res, recur p c = some res)
    (hlen : ∀ p c n L, recur p c = some (n, .ok L) → L.length ≤ c.length)
    (pid : Int) (matched : List Record) :
    ∀ (pending : List Record) (children : List Node) (rem : List Record),
      rem.length < f → ∃ res, childLoop recur pid matched pending children rem = some res := by
  intro pending
  induction pending with
  | nil => intro children rem _; exact ⟨_, rfl⟩
  | cons child rest ih =>
    intro children rem hrem
    rw [childLoop]
    by_cases h1 : child.hasDuplicatesIn matched = true
    · rw [if_pos h1]; exact ⟨_, rfl⟩
    by_cases h2 : pid > child.ID
    · rw [if_neg h1, if_pos h2]; exact ⟨_, rfl⟩
    by_cases h3 : child.Parent > child.ID
    · rw [if_neg h1, if_neg h2, if_pos h3]; exact ⟨_, rfl⟩
    rw [if_neg h1, if_neg h2, if_neg h3]
    simp only
    by_cases h4 : rem.length > 0
    · rw [if_pos h4]
      obtain ⟨⟨n, r⟩, hres⟩ := hrec (newNode child) rem hrem
      rw [hres]
      cases r with
      | error e => exact ⟨_, rfl⟩
      | ok rem1 =>
        have := hlen _ _ _ _ hres
        exact ih _ _ (by omega)
    · rw [if_neg h4]
      exact ih _ _ hrem

theorem marshalChildrenFuel_total : ∀ (fuel : Nat) (p : Node) (c : List Record),
    c.length < fuel → ∃ res, marshalChildrenFuel fuel p c = some res := by
  intro fuel
  induction fuel with
  | zero => intro p c h; omega
  | succ f ih =>
    intro p c hc
    rw [marshalChildrenFuel, where__eq]
    simp only
    have hloop : ∃ res, childLoop (marshalChildrenFuel f) p.ID
        (c.filter (fun r => r.Parent == p.ID)) (c.filter (fun r => r.Parent == p.ID))
        p.Children (c.filter (fun r => !(r.Parent == p.ID))) = some res := by
      cases hm : c.filter (fun r => r.Parent == p.ID) with
      | nil => exact ⟨_, rfl⟩
      | cons a as =>
        rw [← hm]
        refine childLoop_total _ f ih ?_ _ _ _ _ _ ?_
        · intro q d n L h
          exact (marshalChildrenFuel_ok_length h).trans (List.length_filter_le _ _)
        · have hsplit := (List.filter_append_perm (fun r : Record => r.Parent == p.ID) c).length_eq
          rw [List.length_append, hm, List.length_cons] at hsplit
          omega
    obtain ⟨⟨ch, r⟩, hres⟩ := hloop
    rw [hres]
    cases r with
    | error e => exact ⟨_, rfl⟩
    | ok rem => exact ⟨_, rfl⟩

theorem marshalChildren_total (p : Node) (c : List Record) :
    ∃ res, marshalChildren p c = some res :=
  marshalChildrenFuel_total _ p c (Nat.lt_succ_self _)

/-! ## What a successful `Build` guarantees -/

theorem buildSorted_ok {s : List Record} {t : Node}
    (h : buildSorted s = some (some t, none)) :
    ∃ root kids,
      s.getLast?.map Record.ID = some ((s.length : Int) - 1) ∧
      s.filter (fun r => r.ID == r.Parent) = [root] ∧ root.ID = 0 ∧
      LoopOk ((s.filter (fun r => !(r.ID == r.Parent))).filter (fun r => r.Parent == 0)) 0
        ((s.filter (fun r => !(r.ID == r.Parent))).filter (fun r => r.Parent == 0))
        ((s.filter (fun r => !(r.ID == r.Parent))).filter (fun r => !(r.Parent == 0)))
        kids [] ∧
      t = Node.mk 0 (kids.insertionSort (fun a b => a.ID ≤ b.ID)) := by
  unfold buildSorted at h
  rw [where__eq] at h
  by_cases h1 : s.getLast?.map Record.ID ≠ some ((s.length : Int) - 1)
  · rw [if_pos h1] at h; exact absurd h (by simp)
  rw [if_neg h1] at h
  simp only at h
  split at h
  · next root hroot =>
    by_cases h2 : (newNode root).ID ≠ 0
    · rw [if_pos h2] at h; exact absurd h (by simp)
    rw [if_neg h2] at h
    have hid : root.ID = 0 := by simpa [newNode, Node.ID] using h2
    split at h
    · exact absurd h (by simp)
    · next node fin hm =>
      by_cases h3 : fin.length > 0
      · rw [if_pos h3] at h; exact absurd h (by simp)
      rw [if_neg h3] at h
      have hfin : fin = [] := by
        cases fin with
        | nil => rfl
        | cons a b => simp at h3
      subst hfin
      simp only [Option.some.injEq, Prod.mk.injEq, and_true] at h
      subst h
      obtain ⟨kids, hk, hn⟩ := marshalChildrenFuel_ok _ _ _ _ _ hm
      simp only [Node.sortChildren, newNode, Node.ID, Node.Children, List.insertionSort,
        hid, List.nil_append] at hk hn
      exact ⟨root, kids, not_not.1 h1, hroot, hid, hk, hn⟩
    · exact absurd h (by simp)
  · exact absurd h (by simp)

theorem Build_ok {r : List Record} {t : Node} (h : Build r = some (some t, none)) :
    r ≠ [] ∧ buildSorted (sortRecords r) = some (some t, none) := by
  unfold Build at h
  by_cases h0 : r.length = 0
  · rw [if_pos h0] at h; exact absurd h (by simp)
  · rw [if_neg h0] at h
    exact ⟨by intro hr; simp [hr] at h0, h⟩

theorem Node.induct (P : Node → Prop)
    (h : ∀ i cs, (∀ c ∈ cs, P c) → P (Node.mk i cs)) : ∀ t, P t := by
  intro t
  exact Node.rec (motive_1 := P) (motive_2 := fun cs => ∀ c ∈ cs, P c)
    (fun i cs ih => h i cs ih) (by simp)
    (fun c cs hc hcs => by
      intro x hx
      rcases List.mem_cons.1 hx with rfl | hx
      · exact hc
      · exact hcs x hx) t

theorem nodesOf_ids_perm_of (cs : List Node)
    (h : ∀ c ∈ cs, (c.nodes.map Node.ID).Perm (c.ID :: c.edges.map Record.ID)) :
    ((nodesOf cs).map Node.ID).Perm (cs.map Node.ID ++ (edgesOf cs).map Record.ID) := by
  induction cs with
  | nil => simp [nodesOf, edgesOf_nil]
  | cons c cs ih =>
    rw [nodesOf_cons, edgesOf_cons, List.map_append, List.map_append, List.map_cons]
    have h1 := h c (List.mem_cons_self _ _)
    have h2 := ih (fun x hx => h x (List.mem_cons_of_mem _ hx))
    refine (h1.append h2).trans ?_
    simp only [List.cons_append]
    refine List.Perm.cons _ ?_
    rw [← List.append_assoc, ← List.append_assoc]
    exact List.Perm.append_right _ List.perm_append_comm

theorem nodes_ids_perm : ∀ t : Node,
    (t.nodes.map Node.ID).Perm (t.ID :: t.edges.map Record.ID) := by
  apply Node.induct
  intro i cs ih
  rw [nodes_mk, edges_mk, List.map_cons, List.map_append]
  refine List.Perm.cons _ ?_
  have := nodesOf_ids_perm_of cs ih
  simpa [Function.comp_def] using this

theorem nodesOf_ids_perm (cs : List Node) :
    ((nodesOf cs).map Node.ID).Perm (cs.map Node.ID ++ (edgesOf cs).map Record.ID) :=
  nodesOf_ids_perm_of cs (fun c _ => nodes_ids_perm c)

theorem flatten_ids_perm (t : Node) : (t.flatten.map Record.ID).Perm (t.nodes.map Node.ID) := by
  simpa [Node.flatten] using (nodes_ids_perm t).symm

theorem size_eq_flatten_length (t : Node) : t.size = t.flatten.length := by
  have := (flatten_ids_perm t).length_eq
  simpa [Node.size] using this.symm

theorem sortRecords_perm (r : List Record) : (sortRecords r).Perm r :=
  List.perm_insertionSort _ r

theorem sortRecords_sorted (r : List Record) : IDSorted (sortRecords r) :=
  List.sorted_insertionSort _ r

theorem self_parented_root {s : List Record} {root : Record}
    (h : s.filter (fun r => r.ID == r.Parent) = [root]) (hid : root.ID = 0) :
    root = ⟨0, 0⟩ := by
  have hm : root ∈ s.filter (fun r => r.ID == r.Parent) := by rw [h]; simp
  have hp : root.ID = root.Parent := by simpa using (List.mem_filter.1 hm).2
  cases root with
  | mk i p =>
    simp only at hid hp
    subst hid
    simp [← hp]

theorem buildSorted_flatten {s : List Record} {t : Node}
    (h : buildSorted s = some (some t, none)) : t.flatten.Perm s := by
  obtain ⟨root, kids, _, hroot, hid, hk, rfl⟩ := buildSorted_ok h
  have hr := self_parented_root hroot hid
  have h1 := edges_sorted_node_perm hk
  have h2 := hk.edges_perm
  rw [List.append_nil] at h2
  have h3 := List.filter_append_perm (fun r : Record => r.Parent == 0)
    (s.filter (fun r => !(r.ID == r.Parent)))
  have h4 := List.filter_append_perm (fun r : Record => r.ID == r.Parent) s
  rw [hroot, hr] at h4
  unfold Node.flatten
  simp only [Node.ID]
  refine List.Perm.trans ?_ h4
  simp only [List.singleton_append]
  exact List.Perm.cons _ ((h1.trans (List.Perm.append_left _ h2)).trans h3)

/-- C3: whenever `Build` returns a tree and a nil error, every input record is attached:
the tree has as many nodes as the input has records, and its (node ID, parent node ID)
pairs, the root paired with itself, are a permutation of the input. -/
theorem Build_ok_attaches_every_record (r : List Record) (t : Node)
    (h : Build r = some (some t, none)) :
    t.size = r.length ∧ t.flatten.Perm r := by
  have hp : t.flatten.Perm r :=
    (buildSorted_flatten (Build_ok h).2).trans (sortRecords_perm r)
  exact ⟨by rw [size_eq_flatten_length, hp.length_eq], hp⟩

/-- Witness of C3 on the four-record tree of the specification. -/
theorem Build_ok_attaches_every_record_witness :
    Build [⟨0, 0⟩, ⟨1, 0⟩, ⟨2, 0⟩, ⟨3, 1⟩]
        = some (some (.mk 0 [.mk 1 [.mk 3 []], .mk 2 []]), none) ∧
      (Node.mk 0 [.mk 1 [.mk 3 []], .mk 2 []]).size
        = [(⟨0, 0⟩ : Record), ⟨1, 0⟩, ⟨2, 0⟩, ⟨3, 1⟩].length ∧
      (Node.mk 0 [.mk 1 [.mk 3 []], .mk 2 []]).flatten.Perm
        [⟨0, 0⟩, ⟨1, 0⟩, ⟨2, 0⟩, ⟨3, 1⟩] :=
  ⟨rfl, Build_ok_attaches_every_record _ _ rfl⟩

/-! ## The shape of every result of `Build` -/

theorem buildSorted_cases (s : List Record) :
    (∃ t, buildSorted s = some (some t, none)) ∨ ∃ n e, buildSorted s = some (n, some e) := by
  unfold buildSorted
  by_cases h1 : s.getLast?.map Record.ID ≠ some ((s.length : Int) - 1)
  · rw [if_pos h1]; exact Or.inr ⟨_, _, rfl⟩
  rw [if_neg h1]
  simp only
  split
  · next root hroot =>
    by_cases h2 : (newNode root).ID ≠ 0
    · rw [if_pos h2]; exact Or.inr ⟨_, _, rfl⟩
    rw [if_neg h2]
    obtain ⟨⟨n, res⟩, hres⟩ := marshalChildren_total (newNode root).sortChildren
      (where_ s (fun r => r.ID == r.Parent)).2
    rw [hres]
    cases res with
    | error e => exact Or.inr ⟨_, _, rfl⟩
    | ok fin =>
      simp only
      by_cases h3 : fin.length > 0
      · rw [if_pos h3]; exact Or.inr ⟨_, _, rfl⟩
      · rw [if_neg h3]; exact Or.inl ⟨_, rfl⟩
  · exact Or.inr ⟨_, _, rfl⟩

theorem Build_cases (r : List Record) :
    (r = [] ∧ Build r = some (none, none)) ∨ (r ≠ [] ∧ ∃ t, Build r = some (some t, none)) ∨
      (r ≠ [] ∧ ∃ n e, Build r = some (n, some e)) := by
  unfold Build
  cases r with
  | nil => exact Or.inl ⟨rfl, rfl⟩
  | cons a l =>
    rw [if_neg (by simp)]
    rcases buildSorted_cases (sortRecords (a :: l)) with h | h
    · exact Or.inr (Or.inl ⟨by simp, h⟩)
    · exact Or.inr (Or.inr ⟨by simp, h⟩)

/-- Totality: `Build` returns on every input; the recursion bound is never what ends a run. -/
theorem Build_total (r : List Record) : ∃ res, Build r = some res := by
  rcases Build_cases r with ⟨_, h⟩ | ⟨_, t, h⟩ | ⟨_, n, e, h⟩
  · exact ⟨_, h⟩
  · exact ⟨_, h⟩
  · exact ⟨_, h⟩

/-- C9: `Build` returns no tree together with no error on the empty record sequence and
on no other input. -/
theorem Build_nil_nil_iff_empty (r : List Record) :
    Build r = some (none, none) ↔ r = [] := by
  constructor
  · intro h
    rcases Build_cases r with ⟨h0, _⟩ | ⟨_, t, ht⟩ | ⟨_, n, e, he⟩
    · exact h0
    · rw [ht] at h; exact absurd h (by simp)
    · rw [he] at h; exact absurd h (by simp)
  · rintro rfl; rfl

/-- C5, the run that breaks it: on `[{0,0},{1,0},{1,0},{3,0}]` the duplicate-ID error
of `marshalChildren` comes back from `Build` together with the root node, not with a
nil node. -/
theorem Build_returns_node_with_error :
    Build [⟨0, 0⟩, ⟨1, 0⟩, ⟨1, 0⟩, ⟨3, 0⟩] = some (some (.mk 0 []), some .duplicates) := by
  rfl

/-- C4, the run that breaks it: the IDs 0,1,3,3 (parents 0,0,0,1) are accepted and a
tree with two nodes of ID 3 is returned, although ID 2 is missing and ID 3 occurs
twice. -/
theorem Build_accepts_repeated_id :
    Build [⟨0, 0⟩, ⟨1, 0⟩, ⟨3, 0⟩, ⟨3, 1⟩]
        = some (some (.mk 0 [.mk 1 [.mk 3 []], .mk 3 []]), none) ∧
      ¬ ContiguousIDs [⟨0, 0⟩, ⟨1, 0⟩, ⟨3, 0⟩, ⟨3, 1⟩] := by
  refine ⟨rfl, ?_⟩
  intro h
  have := (List.Perm.nodup_iff h).2 (by decide)
  exact absurd this (by decide)

/-! ## Checks passed by every attached record -/

theorem nodup_ids_of_no_duplicates {l : List Record}
    (h : ∀ c ∈ l, c.hasDuplicatesIn l = false) : (l.map Record.ID).Nodup := by
  rw [List.nodup_iff_count_le_one]
  intro a
  by_cases ha : a ∈ l.map Record.ID
  · obtain ⟨c, hc, rfl⟩ := List.mem_map.1 ha
    have := h c hc
    rw [hasDuplicatesIn_eq] at this
    have hle : l.countP (fun e => e.ID == c.ID) ≤ 1 := by simpa using this
    rw [List.count, List.countP_map]
    simpa [Function.comp_def] using hle
  · rw [List.count_eq_zero_of_not_mem ha]; omega

theorem LoopOk.edges_le {matched : List Record} {pid : Int} {pending rem : List Record}
    {kids : List Node} {out : List Record} (h : LoopOk matched pid pending rem kids out) :
    ∀ e ∈ edgesOf kids, e.Parent ≤ e.ID := by
  induction h with
  | done => simp [edgesOf_nil]
  | leaf matched pid child rest kids out _ _ _ _ ih =>
    simpa [edgesOf_cons, newNode, edges_mk, edgesOf_nil] using ih
  | inner matched pid child rest rem gkids rem1 kids out _ _ _ _ hg _ ih1 ih2 =>
    intro e he
    rw [edgesOf_cons] at he
    rcases List.mem_append.1 he with he | he
    · rcases List.mem_append.1 ((edges_sorted_node_perm hg).mem_iff.1 he) with hm | hm
      · exact (hg.checks e hm).2.2
      · exact ih1 e hm
    · exact ih2 e he

theorem LoopOk.sorted_kids_ascending {matched : List Record} {pid : Int}
    {rem : List Record} {kids : List Node} {out : List Record}
    (h : LoopOk matched pid matched rem kids out) :
    ((kids.insertionSort (fun a b => a.ID ≤ b.ID)).map Node.ID).Sorted (· < ·) := by
  have hs := List.perm_insertionSort (fun a b : Node => a.ID ≤ b.ID) kids
  have hnd : ((kids.insertionSort (fun a b => a.ID ≤ b.ID)).map Node.ID).Nodup := by
    rw [(hs.map Node.ID).nodup_iff, h.kids_ids]
    exact nodup_ids_of_no_duplicates (fun c hc => (h.checks c hc).1)
  have hsorted : ((kids.insertionSort (fun a b => a.ID ≤ b.ID)).map Node.ID).Sorted
      (· ≤ ·) := by
    have := List.sorted_insertionSort (fun a b : Node => a.ID ≤ b.ID) kids
    exact List.pairwise_map.2 this
  exact hsorted.lt_of_le hnd

theorem LoopOk.children_ascending {matched : List Record} {pid : Int}
    {pending rem : List Record} {kids : List Node} {out : List Record}
    (h : LoopOk matched pid pending rem kids out) :
    ∀ x ∈ nodesOf kids, (x.Children.map Node.ID).Sorted (· < ·) := by
  induction h with
  | done => simp [nodesOf]
  | leaf matched pid child rest kids out _ _ _ _ ih =>
    intro x hx
    rw [nodesOf_cons, newNode, nodes_mk] at hx
    simp only [nodesOf, List.cons_append, List.nil_append, List.mem_cons] at hx
    rcases hx with rfl | hx
    · simp [Node.Children]
    · exact ih x hx
  | inner matched pid child rest rem gkids rem1 kids out _ _ _ _ hg _ ih1 ih2 =>
    intro x hx
    rw [nodesOf_cons, nodes_mk] at hx
    simp only [List.cons_append, List.mem_cons, List.mem_append] at hx
    rcases hx with rfl | hx | hx
    · simpa only [Node.Children] using hg.sorted_kids_ascending
    · exact ih1 x ((nodesOf_perm (List.perm_insertionSort _ gkids)).mem_iff.1 hx)
    · exact ih2 x hx

theorem buildSorted_children_ascending {s : List Record} {t : Node}
    (h : buildSorted s = some (some t, none)) :
    ∀ x ∈ t.nodes, (x.Children.map Node.ID).Sorted (· < ·) := by
  obtain ⟨root, kids, _, _, _, hk, rfl⟩ := buildSorted_ok h
  intro x hx
  rw [nodes_mk] at hx
  rcases List.mem_cons.1 hx with rfl | hx
  · simpa only [Node.Children] using hk.sorted_kids_ascending
  · exact hk.children_ascending x
      ((nodesOf_perm (List.perm_insertionSort _ kids)).mem_iff.1 hx)

/-- C7: whenever `Build` returns a tree and a nil error, the children of every node of
the tree, at every depth, are in strictly ascending ID order; in particular no node
has two children with the same ID. -/
theorem Build_ok_children_strictly_ascending (r : List Record) (t : Node)
    (h : Build r = some (some t, none)) :
    ∀ x ∈ t.nodes, (x.Children.map Node.ID).Sorted (· < ·) ∧ (x.Children.map Node.ID).Nodup :=
  fun x hx => ⟨buildSorted_children_ascending (Build_ok h).2 x hx,
    (buildSorted_children_ascending (Build_ok h).2 x hx).nodup⟩

/-- Witness of C7 on an input given out of order. -/
theorem Build_ok_children_strictly_ascending_witness :
    Build [⟨2, 0⟩, ⟨3, 1⟩, ⟨1, 0⟩, ⟨0, 0⟩]
        = some (some (.mk 0 [.mk 1 [.mk 3 []], .mk 2 []]), none) ∧
      ∀ x ∈ (Node.mk 0 [.mk 1 [.mk 3 []], .mk 2 []]).nodes,
        (x.Children.map Node.ID).Sorted (· < ·) ∧ (x.Children.map Node.ID).Nodup :=
  ⟨rfl, Build_ok_children_strictly_ascending [⟨2, 0⟩, ⟨3, 1⟩, ⟨1, 0⟩, ⟨0, 0⟩] _ rfl⟩

theorem LoopOk.consumed_le {matched : List Record} {pid : Int} {rem : List Record}
    {kids : List Node} {out : List Record} (h : LoopOk matched pid matched rem kids out)
    (x : Record) (hx : x ∈ matched ∨ (x ∈ rem ∧ out = [])) : x.Parent ≤ x.ID := by
  rcases hx with hx | ⟨hx, rfl⟩
  · exact (h.checks x hx).2.2
  · have hp := h.edges_perm
    rw [List.append_nil] at hp
    exact h.edges_le x (hp.mem_iff.2 hx)

/-- C6: whenever `Build` returns a tree and a nil error, exactly one input record has
`ID == Parent`, it is the record `{0, 0}`, the root of the tree carries its ID, and
every other input record has `Parent < ID`. -/
theorem Build_ok_root_and_parent_order (r : List Record) (t : Node)
    (h : Build r = some (some t, none)) :
    r.filter (fun x => x.ID == x.Parent) = [⟨0, 0⟩] ∧ t.ID = 0 ∧
      ∀ x ∈ r, x.ID ≠ x.Parent → x.Parent < x.ID := by
  obtain ⟨root, kids, _, hroot, hid, hk, rfl⟩ := buildSorted_ok (Build_ok h).2
  have hr := self_parented_root hroot hid
  subst hr
  have hs := sortRecords_perm r
  refine ⟨?_, rfl, ?_⟩
  · have := (hs.filter (fun x => x.ID == x.Parent)).symm
    rw [hroot] at this
    exact List.perm_singleton.1 this
  · intro x hx hne
    have hxs : x ∈ (sortRecords r).filter (fun r => !(r.ID == r.Parent)) := by
      refine List.mem_filter.2 ⟨hs.mem_iff.2 hx, ?_⟩
      simpa using hne
    have hle : x.Parent ≤ x.ID := by
      by_cases hp : x.Parent = 0
      · exact hk.consumed_le x (Or.inl (List.mem_filter.2 ⟨hxs, by simpa using hp⟩))
      · exact hk.consumed_le x (Or.inr ⟨List.mem_filter.2 ⟨hxs, by simpa using hp⟩, rfl⟩)
    omega

/-- Witness of C6 on an input given out of order. -/
theorem Build_ok_root_and_parent_order_witness :
    Build [⟨1, 0⟩, ⟨3, 1⟩, ⟨0, 0⟩, ⟨2, 1⟩]
        = some (some (.mk 0 [.mk 1 [.mk 2 [], .mk 3 []]]), none) ∧
      [(⟨1, 0⟩ : Record), ⟨3, 1⟩, ⟨0, 0⟩, ⟨2, 1⟩].filter (fun x => x.ID == x.Parent)
        = [⟨0, 0⟩] ∧
      (Node.mk 0 [.mk 1 [.mk 2 [], .mk 3 []]]).ID = 0 ∧
      ∀ x ∈ [(⟨1, 0⟩ : Record), ⟨3, 1⟩, ⟨0, 0⟩, ⟨2, 1⟩], x.ID ≠ x.Parent → x.Parent < x.ID :=
  ⟨rfl, Build_ok_root_and_parent_order [⟨1, 0⟩, ⟨3, 1⟩, ⟨0, 0⟩, ⟨2, 1⟩] _ rfl⟩

/-! ## Repeated records are never attached -/

theorem not_repeated_of_no_duplicates {l : List Record} {x : Record}
    (h : ∀ c ∈ l, c.hasDuplicatesIn l = false) : l.count x ≤ 1 := by
  by_cases hx : x ∈ l
  · have := h x hx
    rw [hasDuplicatesIn_eq] at this
    have hle : l.countP (fun e => e.ID == x.ID) ≤ 1 := by simpa using this
    refine le_trans ?_ hle
    rw [List.count]
    apply List.countP_mono_left
    intro e _ he
    have : e = x := by simpa using he
    simp [this]
  · rw [List.count_eq_zero_of_not_mem hx]; omega

theorem LoopOk.keeps_repeated {matched : List Record} {pid : Int} {pending rem : List Record}
    {kids : List Node} {out : List Record} (h : LoopOk matched pid pending rem kids out) :
    ∀ x, 2 ≤ rem.count x → 2 ≤ out.count x := by
  induction h with
  | done => exact fun _ hx => hx
  | leaf matched pid child rest kids out _ _ _ _ ih => exact ih
  | inner matched pid child rest rem gkids rem1 kids out _ _ _ _ hg _ ih1 ih2 =>
    intro x hx
    apply ih2
    apply ih1
    by_cases hp : x.Parent = child.ID
    · have h1 : (rem.filter (fun r => r.Parent == child.ID)).count x = rem.count x :=
        List.count_filter (by simpa using hp)
      have h2 := not_repeated_of_no_duplicates (x := x) (fun c hc => (hg.checks c hc).1)
      omega
    · rw [List.count_filter (by simpa using hp)]
      exact hx

theorem buildSorted_ok_count_le_one {s : List Record} {t : Node}
    (h : buildSorted s = some (some t, none)) (x : Record) : s.count x ≤ 1 := by
  obtain ⟨root, kids, _, hroot, _, hk, _⟩ := buildSorted_ok h
  by_cases h1 : x.ID = x.Parent
  · have : (s.filter (fun r => r.ID == r.Parent)).count x = s.count x :=
      List.count_filter (by simpa using h1)
    rw [← this, hroot]
    by_cases hx : x = root <;> simp [List.count_singleton, hx]
  · have e1 : ((s.filter (fun r => !(r.ID == r.Parent)))).count x = s.count x :=
      List.count_filter (by simpa using h1)
    by_cases h2 : x.Parent = 0
    · have e2 : ((s.filter (fun r => !(r.ID == r.Parent))).filter
          (fun r => r.Parent == 0)).count x = s.count x := by
        rw [List.count_filter (by simpa using h2), e1]
      rw [← e2]
      exact not_repeated_of_no_duplicates (fun c hc => (hk.checks c hc).1)
    · have e2 : ((s.filter (fun r => !(r.ID == r.Parent))).filter
          (fun r => !(r.Parent == 0))).count x = s.count x := by
        rw [List.count_filter (by simpa using h2), e1]
      by_contra hgt
      have := hk.keeps_repeated x (by omega)
      simp at this

/-- C10: an input that holds, at two different positions, records with the same ID and
the same Parent makes `Build` return a non-nil error, whatever the other records are. -/
theorem Build_rejects_sibling_duplicates (r : List Record) (i j : Nat) (a b : Record)
    (hij : i ≠ j) (hi : r[i]? = some a) (hj : r[j]? = some b)
    (hID : a.ID = b.ID) (hParent : a.Parent = b.Parent) :
    ∃ n e, Build r = some (n, some e) := by
  have hab : a = b := by
    cases a; cases b; simp only at hID hParent; simp [hID, hParent]
  subst hab
  have hnd : ¬ r.Nodup := by
    intro hnd
    rw [List.nodup_iff_getElem?_ne_getElem?] at hnd
    have hlen : ∀ k, r[k]? = some a → k < r.length := by
      intro k hk
      by_contra hlt
      rw [List.getElem?_eq_none (by omega)] at hk
      exact absurd hk (by simp)
    rcases Nat.lt_or_gt_of_ne hij with hlt | hlt
    · exact hnd i j hlt (hlen j hj) (hi.trans hj.symm)
    · exact hnd j i hlt (hlen i hi) (hj.trans hi.symm)
  obtain ⟨x, hx⟩ := List.exists_duplicate_iff_not_nodup.2 hnd
  have hcount : 2 ≤ r.count x := List.duplicate_iff_two_le_count.1 hx
  rcases Build_cases r with ⟨h0, _⟩ | ⟨_, t, ht⟩ | ⟨_, hne⟩
  · subst h0; simp at hcount
  · have := buildSorted_ok_count_le_one (Build_ok ht).2 x
    rw [(sortRecords_perm r).count_eq] at this
    omega
  · exact hne

/-- Witness of C10: the two `{3, 1}` records pass the contiguity and root checks and
meet under node 1. -/
theorem Build_rejects_sibling_duplicates_witness :
    ((2 : Nat) ≠ 3 ∧ [(⟨0, 0⟩ : Record), ⟨1, 0⟩, ⟨3, 1⟩, ⟨3, 1⟩][2]? = some ⟨3, 1⟩ ∧
      [(⟨0, 0⟩ : Record), ⟨1, 0⟩, ⟨3, 1⟩, ⟨3, 1⟩][3]? = some ⟨3, 1⟩) ∧
      ∃ n e, Build [⟨0, 0⟩, ⟨1, 0⟩, ⟨3, 1⟩, ⟨3, 1⟩] = some (n, some e) :=
  ⟨⟨by decide, rfl, rfl⟩,
    Build_rejects_sibling_duplicates [⟨0, 0⟩, ⟨1, 0⟩, ⟨3, 1⟩, ⟨3, 1⟩] 2 3 ⟨3, 1⟩ ⟨3, 1⟩
      (by decide) rfl rfl rfl rfl⟩

/-! ## Candidates on which `marshalChildren` cannot fail -/

theorem checked_sublist {c d : List Record} (hs : d.Sublist c)
    (h : (c.map Record.ID).Nodup ∧ ∀ x ∈ c, x.Parent ≤ x.ID) :
    (d.map Record.ID).Nodup ∧ ∀ x ∈ d, x.Parent ≤ x.ID :=
  ⟨h.1.sublist (hs.map _), fun x hx => h.2 x (hs.subset hx)⟩

theorem no_duplicates_of_nodup_ids {l : List Record} (h : (l.map Record.ID).Nodup)
    (c : Record) : c.hasDuplicatesIn l = false := by
  rw [hasDuplicatesIn_eq]
  have h1 := List.nodup_iff_count_le_one.1 h c.ID
  rw [List.count, List.countP_map] at h1
  have h2 : l.countP (fun e => e.ID == c.ID) ≤ 1 := by
    simpa [Function.comp_def] using h1
  simpa using h2

theorem childLoop_succeeds (recur : Node → List Record → Option MarshalResult) (f : Nat)
    (hrec : ∀ p c, c.length < f → ((c.map Record.ID).Nodup ∧ ∀ x ∈ c, x.Parent ≤ x.ID) →
      ∃ n L, recur p c = some (n, .ok L) ∧ L.Sublist c)
    (pid : Int) (matched : List Record) :
    ∀ (pending : List Record) (children : List Node) (rem : List Record),
      (∀ c ∈ pending, c.hasDuplicatesIn matched = false ∧ pid ≤ c.ID ∧ c.Parent ≤ c.ID) →
      rem.length < f → ((rem.map Record.ID).Nodup ∧ ∀ x ∈ rem, x.Parent ≤ x.ID) →
      ∃ ch L, childLoop recur pid matched pending children rem = some (ch, .ok L) ∧
        L.Sublist rem := by
  intro pending
  induction pending with
  | nil => intro children rem _ _ _; exact ⟨_, _, rfl, List.Sublist.refl _⟩
  | cons child rest ih =>
    intro children rem hchk hlen hq
    obtain ⟨h1, h2, h3⟩ := hchk child (List.mem_cons_self _ _)
    have hrest := fun c hc => hchk c (List.mem_cons_of_mem _ hc)
    rw [childLoop, if_neg (by simp [h1]), if_neg (by omega), if_neg (by omega)]
    simp only
    by_cases h4 : rem.length > 0
    · rw [if_pos h4]
      obtain ⟨n, rem1, hres, hsub⟩ := hrec (newNode child) rem hlen hq
      rw [hres]
      simp only
      obtain ⟨ch, L, hL, hLs⟩ := ih (children ++ [n]) rem1 hrest
        (lt_of_le_of_lt hsub.length_le hlen) (checked_sublist hsub hq)
      exact ⟨ch, L, hL, hLs.trans hsub⟩
    · rw [if_neg h4]
      exact ih _ _ hrest hlen hq

theorem marshalChildrenFuel_succeeds : ∀ (fuel : Nat) (p : Node) (c : List Record),
    c.length < fuel → ((c.map Record.ID).Nodup ∧ ∀ x ∈ c, x.Parent ≤ x.ID) →
    ∃ n L, marshalChildrenFuel fuel p c = some (n, .ok L) ∧ L.Sublist c := by
  intro fuel
  induction fuel with
  | zero => intro p c h; omega
  | succ f ih =>
    intro p c hc hq
    rw [marshalChildrenFuel, where__eq]
    simp only
    have hM := checked_sublist (List.filter_sublist (p := fun r => r.Parent == p.ID) c) hq
    have hU := checked_sublist (List.filter_sublist (p := fun r => !(r.Parent == p.ID)) c) hq
    have hloop : ∃ ch L, childLoop (marshalChildrenFuel f) p.ID
        (c.filter (fun r => r.Parent == p.ID)) (c.filter (fun r => r.Parent == p.ID))
        p.Children (c.filter (fun r => !(r.Parent == p.ID))) = some (ch, .ok L) ∧
        L.Sublist (c.filter (fun r => !(r.Parent == p.ID))) := by
      cases hm : c.filter (fun r => r.Parent == p.ID) with
      | nil => exact ⟨_, _, rfl, List.Sublist.refl _⟩
      | cons a as =>
        rw [← hm]
        refine childLoop_succeeds _ f ih _ _ _ _ _ ?_ ?_ hU
        · intro x hx
          have hxp : x.Parent = p.ID := by simpa using (List.mem_filter.1 hx).2
          have := hM.2 x hx
          exact ⟨no_duplicates_of_nodup_ids hM.1 x, by omega, this⟩
        · have hsplit := (List.filter_append_perm (fun r : Record => r.Parent == p.ID) c).length_eq
          rw [List.length_append, hm, List.length_cons] at hsplit
          omega
    obtain ⟨ch, L, hres, hsub⟩ := hloop
    rw [hres]
    exact ⟨_, _, rfl, hsub.trans (List.filter_sublist _)⟩

/-! ## What is left over has no parent among the attached nodes -/

theorem LoopOk.parent_not_attached {matched : List Record} {pid : Int}
    {pending rem : List Record} {kids : List Node} {out : List Record}
    (h : LoopOk matched pid pending rem kids out) :
    ∀ x ∈ out, x.Parent ∉ (nodesOf kids).map Node.ID := by
  induction h with
  | done => simp [nodesOf]
  | leaf matched pid child rest kids out _ _ _ hr _ =>
    intro x hx
    have := hr.sublist.subset hx
    simp at this
  | inner matched pid child rest rem gkids rem1 kids out _ _ _ _ hg hr ih1 ih2 =>
    intro x hx hmem
    have hx1 : x ∈ rem1 := hr.sublist.subset hx
    have hxU := hg.sublist.subset hx1
    rw [nodesOf_cons, nodes_mk, List.map_append, List.map_cons, List.mem_append,
      List.mem_cons] at hmem
    rcases hmem with (hmem | hmem) | hmem
    · have : ¬ x.Parent = child.ID := by simpa using (List.mem_filter.1 hxU).2
      exact this (by simpa [Node.ID] using hmem)
    · exact ih1 x hx1
        (((nodesOf_perm (List.perm_insertionSort _ gkids)).map Node.ID).mem_iff.1 hmem)
    · exact ih2 x hx hmem

theorem LoopOk.parent_not_consumed {matched : List Record} {pid : Int}
    {rem : List Record} {kids : List Node} {out : List Record}
    (h : LoopOk matched pid matched rem kids out) :
    ∀ x ∈ out, ∀ y, y.ID = x.Parent → y ∈ matched ∨ y ∈ rem → y ∈ out := by
  intro x hx y hy hmem
  have hnot := h.parent_not_attached x hx
  rw [(nodesOf_ids_perm kids).mem_iff, h.kids_ids, List.mem_append] at hnot
  rcases hmem with hm | hm
  · exact absurd (Or.inl (List.mem_map.2 ⟨y, hm, hy⟩)) hnot
  · rcases List.mem_append.1 (h.edges_perm.mem_iff.2 hm) with he | ho
    · exact absurd (Or.inr (List.mem_map.2 ⟨y, he, hy⟩)) hnot
    · exact ho

theorem no_descending_chain (L : List Record)
    (hnn : ∀ x ∈ L, 0 ≤ x.ID)
    (hstep : ∀ x ∈ L, ∃ y ∈ L, y.ID < x.ID) : L = [] := by
  have key : ∀ (k : Nat) (x : Record), x ∈ L → x.ID < k → False := by
    intro k
    induction k with
    | zero =>
      intro x hx hlt
      have := hnn x hx
      simp only [Nat.cast_zero] at hlt
      omega
    | succ k ih =>
      intro x hx hlt
      obtain ⟨y, hy, hyx⟩ := hstep x hx
      exact ih y hy (by push_cast at hlt; omega)
  cases L with
  | nil => rfl
  | cons a l =>
    exfalso
    exact key (a.ID.toNat + 1) a (List.mem_cons_self _ _) (by
      have := hnn a (List.mem_cons_self _ _)
      push_cast
      omega)

/-! ## `Build` on valid input -/

theorem ValidInput.of_perm {r s : List Record} (h : ValidInput r) (hp : s.Perm r) :
    ValidInput s := by
  obtain ⟨h0, h1, h2, h3⟩ := h
  refine ⟨?_, ?_, fun x hx => h2 x (hp.mem_iff.1 hx), fun x hx => h3 x (hp.mem_iff.1 hx)⟩
  · intro hs; subst hs; exact h0 (List.perm_nil.1 hp.symm)
  · unfold ContiguousIDs at *
    rw [hp.length_eq]
    exact (hp.map _).trans h1

theorem ContiguousIDs.ids_eq {s : List Record} (h : ContiguousIDs s) (hs : IDSorted s) :
    s.map Record.ID = (List.range s.length).map Int.ofNat := by
  refine List.eq_of_perm_of_sorted (r := (· ≤ ·)) h (List.pairwise_map.2 hs) ?_
  refine List.pairwise_map.2 ((List.pairwise_le_range _).imp ?_)
  intro a b hab
  exact Int.ofNat_le.2 hab

theorem ContiguousIDs.nodup {s : List Record} (h : ContiguousIDs s) :
    (s.map Record.ID).Nodup := by
  refine (List.Perm.nodup_iff h).2 ?_
  exact (List.nodup_range _).map (fun a b hab => by simpa using hab)

theorem ContiguousIDs.mem_iff {s : List Record} (h : ContiguousIDs s) (i : Int) :
    i ∈ s.map Record.ID ↔ 0 ≤ i ∧ i < s.length := by
  rw [List.Perm.mem_iff h]
  simp only [List.mem_map, List.mem_range]
  constructor
  · rintro ⟨k, hk, rfl⟩
    exact ⟨Int.ofNat_nonneg k, by simp only [Int.ofNat_eq_coe]; omega⟩
  · rintro ⟨h0, h1⟩
    refine ⟨i.toNat, ?_, ?_⟩
    · omega
    · simp only [Int.ofNat_eq_coe]; omega

theorem ContiguousIDs.getLast {s : List Record} (h : ContiguousIDs s) (hs : IDSorted s)
    (hne : s ≠ []) : s.getLast?.map Record.ID = some ((s.length : Int) - 1) := by
  rw [← List.getLast?_map, h.ids_eq hs, List.getLast?_map, List.getLast?_range]
  have : s.length ≠ 0 := by simpa using hne
  rw [if_neg this]
  simp only [Option.map_some', Int.ofNat_eq_coe, Option.some.injEq]
  omega

theorem ValidInput.root_partition {s : List Record} (h : ValidInput s) :
    s.filter (fun r => r.ID == r.Parent) = [⟨0, 0⟩] := by
  obtain ⟨h0, h1, h2, h3⟩ := h
  have hfe : s.filter (fun r => r.ID == r.Parent) = s.filter (· == (⟨0, 0⟩ : Record)) := by
    apply List.filter_congr
    intro x hx
    by_cases hx0 : x.ID = 0
    · have := h2 x hx hx0
      cases x; simp_all
    · have := h3 x hx hx0
      have hne : x ≠ ⟨0, 0⟩ := by intro hc; subst hc; simp at hx0
      have hne2 : ¬ x.ID = x.Parent := by omega
      simp [hne, hne2]
  rw [hfe, List.filter_beq]
  have hmem : (⟨0, 0⟩ : Record) ∈ s := by
    have : (0 : Int) ∈ s.map Record.ID := by
      rw [h1.mem_iff]
      have : s.length ≠ 0 := by simpa using h0
      omega
    obtain ⟨x, hx, hx0⟩ := List.mem_map.1 this
    have := h2 x hx hx0
    cases x; simp_all
  rw [List.count_eq_one_of_mem (List.Nodup.of_map _ h1.nodup) hmem]
  rfl

theorem buildSorted_valid {s : List Record} (hs : IDSorted s) (hv : ValidInput s)
    (hnn : ∀ x ∈ s, 0 ≤ x.Parent) : ∃ t, buildSorted s = some (some t, none) := by
  have hroot := hv.root_partition
  obtain ⟨h0, h1, h2, h3⟩ := hv
  have hle : ∀ x ∈ s, x.Parent ≤ x.ID := by
    intro x hx
    by_cases hx0 : x.ID = 0
    · rw [h2 x hx hx0, hx0]
    · exact le_of_lt (h3 x hx hx0)
  have hq := checked_sublist
    (List.filter_sublist (p := fun r => !(r.ID == r.Parent)) s) ⟨h1.nodup, hle⟩
  obtain ⟨n, L, hm, _⟩ := marshalChildrenFuel_succeeds
    ((s.filter (fun r => !(r.ID == r.Parent))).length + 1) (Node.mk 0 [])
    (s.filter (fun r => !(r.ID == r.Parent))) (Nat.lt_succ_self _) hq
  obtain ⟨kids, hk, _⟩ := marshalChildrenFuel_ok _ _ _ _ _ hm
  simp only [Node.ID] at hk
  have hL : L = [] := by
    apply no_descending_chain
    · intro x hx
      have hxs : x ∈ s :=
        (List.filter_sublist _).subset ((List.filter_sublist _).subset (hk.sublist.subset hx))
      exact ((h1.mem_iff x.ID).1 (List.mem_map_of_mem _ hxs)).1
    · intro x hx
      have hxU := hk.sublist.subset hx
      have hxR := (List.filter_sublist _).subset hxU
      have hxs : x ∈ s := (List.filter_sublist _).subset hxR
      have hp0 : ¬ x.Parent = 0 := by simpa using (List.mem_filter.1 hxU).2
      have hnsp : ¬ x.ID = x.Parent := by simpa using (List.mem_filter.1 hxR).2
      have hx0 : x.ID ≠ 0 := fun hc => hnsp (by rw [h2 x hxs hc, hc])
      have hlt := h3 x hxs hx0
      have hxid := (h1.mem_iff x.ID).1 (List.mem_map_of_mem _ hxs)
      have : x.Parent ∈ s.map Record.ID := by
        rw [h1.mem_iff]
        have := hnn x hxs
        omega
      obtain ⟨y, hy, hyid⟩ := List.mem_map.1 this
      have hy0 : y.ID ≠ 0 := by omega
      have hynsp : ¬ y.ID = y.Parent := by
        have := h3 y hy hy0
        omega
      have hyR : y ∈ s.filter (fun r => !(r.ID == r.Parent)) :=
        List.mem_filter.2 ⟨hy, by simpa using hynsp⟩
      have hyMU : y ∈ (s.filter (fun r => !(r.ID == r.Parent))).filter
            (fun r => r.Parent == 0) ∨
          y ∈ (s.filter (fun r => !(r.ID == r.Parent))).filter
            (fun r => !(r.Parent == 0)) := by
        by_cases hyp : y.Parent = 0
        · exact Or.inl (List.mem_filter.2 ⟨hyR, by simpa using hyp⟩)
        · exact Or.inr (List.mem_filter.2 ⟨hyR, by simpa using hyp⟩)
      exact ⟨y, hk.parent_not_consumed x hx y hyid hyMU, by omega⟩
  subst hL
  refine ⟨n, ?_⟩
  unfold buildSorted
  rw [where__eq, if_neg (not_not.2 (h1.getLast hs h0))]
  simp only [hroot]
  rw [if_neg (by simp [newNode, Node.ID])]
  have hm2 : marshalChildren (newNode ⟨0, 0⟩).sortChildren
      (s.filter (fun r => !(r.ID == r.Parent))) = some (n, .ok []) := hm
  rw [hm2]
  simp

/-- C1 as stated fails: `[{0,0},{1,-1}]` meets every condition of the claim (IDs 0 and
1, record 0 self-parented, `-1 < 1`), and `Build` reports orphans. -/
theorem Build_round_trip_fails_on_negative_parent :
    ValidInput [⟨0, 0⟩, ⟨1, -1⟩] ∧
      Build [⟨0, 0⟩, ⟨1, -1⟩] = some (none, some .orphans) ∧
      ¬ ∃ t, Build [⟨0, 0⟩, ⟨1, -1⟩] = some (some t, none) ∧
        t.flatten.Perm [⟨0, 0⟩, ⟨1, -1⟩] := by
  refine ⟨by decide, rfl, ?_⟩
  rintro ⟨t, ht, _⟩
  have h : Build [⟨0, 0⟩, ⟨1, -1⟩] = some (none, some .orphans) := rfl
  rw [h] at ht
  exact absurd ht (by simp)

/-- C1, amended: for every non-empty record sequence whose IDs are exactly `0 .. n-1`
each once, whose record with ID 0 has Parent 0, whose every other record has
`Parent < ID`, and in which no Parent is negative, `Build` returns a tree with no error
and the flattened tree, the root paired with itself, is a permutation of the input. -/
theorem Build_round_trip (r : List Record) (hv : ValidInput r)
    (hnn : ∀ x ∈ r, 0 ≤ x.Parent) :
    ∃ t, Build r = some (some t, none) ∧ t.flatten.Perm r := by
  have hp := sortRecords_perm r
  obtain ⟨t, ht⟩ := buildSorted_valid (sortRecords_sorted r) (hv.of_perm hp)
    (fun x hx => hnn x (hp.mem_iff.1 hx))
  have hB : Build r = some (some t, none) := by
    unfold Build
    rw [if_neg (by simpa using hv.1)]
    exact ht
  exact ⟨t, hB, (buildSorted_flatten ht).trans hp⟩

/-- Witness of the amended C1 on an input given out of order. -/
theorem Build_round_trip_witness :
    (ValidInput [⟨3, 1⟩, ⟨1, 0⟩, ⟨0, 0⟩, ⟨2, 0⟩] ∧
      ∀ x ∈ [(⟨3, 1⟩ : Record), ⟨1, 0⟩, ⟨0, 0⟩, ⟨2, 0⟩], 0 ≤ x.Parent) ∧
      ∃ t, Build [⟨3, 1⟩, ⟨1, 0⟩, ⟨0, 0⟩, ⟨2, 0⟩] = some (some t, none) ∧
        t.flatten.Perm [⟨3, 1⟩, ⟨1, 0⟩, ⟨0, 0⟩, ⟨2, 0⟩] :=
  ⟨⟨by decide, by decide⟩,
    Build_round_trip [⟨3, 1⟩, ⟨1, 0⟩, ⟨0, 0⟩, ⟨2, 0⟩] (by decide) (by decide)⟩

/-! ## The tree `Build` returns on valid input is the reference tree -/

theorem nodes_subset_nodesOf {c : Node} {cs : List Node} (hc : c ∈ cs) :
    ∀ x ∈ c.nodes, x ∈ nodesOf cs := by
  intro x hx
  rw [nodesOf_eq_flatMap]
  exact List.mem_flatMap.2 ⟨c, hc, hx⟩

theorem eq_referenceTree (r : List Record) (n : Nat)
    (hlt : ∀ i a, a ∈ childIDs r i → i < a ∧ a < n) :
    ∀ (depth : Nat) (t : Node),
      (∀ x ∈ t.nodes, x.Children.map Node.ID = childIDs r x.ID) →
      (n : Int) ≤ t.ID + depth → t = referenceTree r depth t.ID := by
  intro depth
  induction depth with
  | zero =>
    intro t hgood hn
    cases t with
    | mk i cs =>
      have h := hgood _ (mem_nodes_self _)
      simp only [Node.Children, Node.ID] at h hn
      cases cs with
      | nil => rfl
      | cons c cs =>
        have := hlt i c.ID (by rw [← h]; simp)
        simp only [Nat.cast_zero] at hn
        omega
  | succ d ih =>
    intro t hgood hn
    cases t with
    | mk i cs =>
      have h := hgood _ (mem_nodes_self _)
      simp only [Node.Children, Node.ID] at h hn
      simp only [Node.ID, referenceTree, ← h, List.map_map, Node.mk.injEq, true_and]
      have hmap : cs.map (referenceTree r d ∘ Node.ID) = cs.map id := by
        apply List.map_congr_left
        intro c hc
        have hci := hlt i c.ID (by rw [← h]; exact List.mem_map_of_mem _ hc)
        simp only [Function.comp_apply, id_eq]
        symm
        refine ih c (fun x hx => hgood x ?_) (by push_cast at hn; omega)
        rw [nodes_mk]
        exact List.mem_cons_of_mem _ (nodes_subset_nodesOf hc x hx)
      rw [hmap, List.map_id]

theorem mem_childIDs {r : List Record} {i a : Int} :
    a ∈ childIDs r i ↔ (⟨a, i⟩ : Record) ∈ r ∧ a ≠ i := by
  unfold childIDs
  rw [List.mem_insertionSort, List.mem_map]
  constructor
  · rintro ⟨j, hj, rfl⟩
    obtain ⟨hjr, hc⟩ := List.mem_filter.1 hj
    simp only [bne_iff_ne, ne_eq, Bool.and_eq_true, beq_iff_eq] at hc
    cases j with
    | mk ji jp =>
      simp only at hc
      obtain ⟨h1, rfl⟩ := hc
      exact ⟨hjr, h1⟩
  · rintro ⟨h1, h2⟩
    exact ⟨⟨a, i⟩, List.mem_filter.2 ⟨h1, by simpa using h2⟩, rfl⟩

theorem childIDs_sorted {r : List Record} (hnd : (r.map Record.ID).Nodup) (i : Int) :
    (childIDs r i).Sorted (· < ·) := by
  unfold childIDs
  refine (List.sorted_insertionSort (· ≤ ·) _).lt_of_le ?_
  rw [(List.perm_insertionSort _ _).nodup_iff]
  exact hnd.sublist ((List.filter_sublist _).map _)

theorem children_eq_childIDs {r : List Record} {t : Node} (hv : ValidInput r)
    (hflat : t.flatten.Perm r)
    (hasc : ∀ x ∈ t.nodes, (x.Children.map Node.ID).Sorted (· < ·)) :
    ∀ x ∈ t.nodes, x.Children.map Node.ID = childIDs r x.ID := by
  obtain ⟨_, h1, h2, h3⟩ := hv
  have hndr : r.Nodup := List.Nodup.of_map _ h1.nodup
  have hndf : t.flatten.Nodup := hflat.nodup_iff.2 hndr
  have hroot : (⟨t.ID, t.ID⟩ : Record) ∉ t.edges := by
    unfold Node.flatten at hndf
    exact (List.nodup_cons.1 hndf).1
  have hnodes : (t.nodes.map Node.ID).Nodup :=
    (flatten_ids_perm t).nodup_iff.1 ((hflat.map Record.ID).nodup_iff.2 h1.nodup)
  have hself : ∀ e ∈ r, e.ID = e.Parent → e = ⟨t.ID, t.ID⟩ := by
    intro e he hsp
    have he0 : e.ID = 0 := by
      by_contra hne
      have := h3 e he hne
      omega
    have hroot_mem : (⟨t.ID, t.ID⟩ : Record) ∈ r :=
      hflat.mem_iff.1 (by simp [Node.flatten])
    have ht0 : t.ID = 0 := by
      by_contra hne
      have := h3 _ hroot_mem hne
      simp at this
    cases e with
    | mk ei ep =>
      simp only at hsp he0
      subst hsp
      simp [he0, ht0]
  intro x hx
  refine List.eq_of_perm_of_sorted (r := (· < ·)) ?_ (hasc x hx) (childIDs_sorted h1.nodup _)
  rw [List.perm_ext_iff_of_nodup (hasc x hx).nodup (childIDs_sorted h1.nodup _).nodup]
  intro a
  rw [mem_childIDs]
  constructor
  · intro ha
    obtain ⟨c, hc, rfl⟩ := List.mem_map.1 ha
    have hedge : (⟨c.ID, x.ID⟩ : Record) ∈ t.edges :=
      List.mem_flatMap.2 ⟨x, hx, List.mem_map.2 ⟨c, hc, rfl⟩⟩
    have hr : (⟨c.ID, x.ID⟩ : Record) ∈ r :=
      hflat.mem_iff.1 (List.mem_cons_of_mem _ hedge)
    refine ⟨hr, ?_⟩
    intro heq
    have := hself _ hr heq
    rw [this] at hedge
    exact hroot hedge
  · rintro ⟨har, hne⟩
    have hf : (⟨a, x.ID⟩ : Record) ∈ t.flatten := hflat.mem_iff.2 har
    unfold Node.flatten at hf
    rcases List.mem_cons.1 hf with heq | hedge
    · have h1 : a = t.ID := by simpa using congrArg Record.ID heq
      have h2 : x.ID = t.ID := by simpa using congrArg Record.Parent heq
      omega
    · obtain ⟨y, hy, hye⟩ := List.mem_flatMap.1 hedge
      obtain ⟨c, hc, hce⟩ := List.mem_map.1 hye
      have hid : y.ID = x.ID := by simpa using congrArg Record.Parent hce
      have hyx : y = x := List.inj_on_of_nodup_map hnodes hy hx hid
      subst hyx
      exact List.mem_map.2 ⟨c, hc, by simpa using congrArg Record.ID hce⟩

theorem ValidInput.childIDs_bounds {r : List Record} (hv : ValidInput r) (i a : Int)
    (ha : a ∈ childIDs r i) : i < a ∧ a < (r.length : Int) := by
  obtain ⟨_, h1, h2, h3⟩ := hv
  obtain ⟨hmem, hne⟩ := mem_childIDs.1 ha
  have hid := (h1.mem_iff a).1 (List.mem_map.2 ⟨_, hmem, rfl⟩)
  refine ⟨?_, hid.2⟩
  by_cases ha0 : a = 0
  · have := h2 _ hmem ha0
    simp only at this
    omega
  · exact h3 _ hmem ha0

/-- C2 as stated fails: `[{0,0},{1,0},{2,-1}]` meets every condition of the claim, its
reference tree is root 0 with the single child 1, and `Build` reports orphans. -/
theorem Build_reference_fails_on_negative_parent :
    ValidInput [⟨0, 0⟩, ⟨1, 0⟩, ⟨2, -1⟩] ∧
      referenceTree [⟨0, 0⟩, ⟨1, 0⟩, ⟨2, -1⟩] 3 0 = .mk 0 [.mk 1 []] ∧
      Build [⟨0, 0⟩, ⟨1, 0⟩, ⟨2, -1⟩] = some (none, some .orphans) ∧
      Build [⟨0, 0⟩, ⟨1, 0⟩, ⟨2, -1⟩]
        ≠ some (some (referenceTree [⟨0, 0⟩, ⟨1, 0⟩, ⟨2, -1⟩] 3 0), none) := by
  refine ⟨by decide, rfl, rfl, ?_⟩
  intro ht
  have h : Build [⟨0, 0⟩, ⟨1, 0⟩, ⟨2, -1⟩] = some (none, some .orphans) := rfl
  rw [h] at ht
  exact absurd ht (by simp)

/-- C2, amended: for every record sequence of length `n ≥ 1` whose IDs are exactly
`0 .. n-1` each once, with record 0 self-parented, every other record having
`Parent < ID`, and no Parent negative, `Build` returns without error the reference
tree: root 0, and below the node with ID `i` the nodes for the records `j ≠ i` with
`Parent == i`, in ascending ID order, recursively (expanded to any depth of at least
`n` levels). -/
theorem Build_eq_referenceTree (r : List Record) (hv : ValidInput r)
    (hnn : ∀ x ∈ r, 0 ≤ x.Parent) (depth : Nat) (hd : r.length ≤ depth) :
    Build r = some (some (referenceTree r depth 0), none) := by
  have hp := sortRecords_perm r
  obtain ⟨t, ht⟩ := buildSorted_valid (sortRecords_sorted r) (hv.of_perm hp)
    (fun x hx => hnn x (hp.mem_iff.1 hx))
  have hB : Build r = some (some t, none) := by
    unfold Build
    rw [if_neg (by simpa using hv.1)]
    exact ht
  have hflat : t.flatten.Perm r := (buildSorted_flatten ht).trans hp
  have hgood := children_eq_childIDs hv hflat (buildSorted_children_ascending ht)
  have hid : t.ID = 0 := by
    obtain ⟨_, _, _, _, _, _, rfl⟩ := buildSorted_ok ht
    rfl
  have := eq_referenceTree r r.length hv.childIDs_bounds depth t hgood
    (by rw [hid]; omega)
  rw [hB, this, hid]

/-- Witness of the amended C2: the four-record input of the specification gives root 0
with children 1 and 2, node 1 with the single child 3, nodes 2 and 3 without
children. -/
theorem Build_eq_referenceTree_witness :
    (ValidInput [⟨0, 0⟩, ⟨1, 0⟩, ⟨2, 0⟩, ⟨3, 1⟩] ∧
      (∀ x ∈ [(⟨0, 0⟩ : Record), ⟨1, 0⟩, ⟨2, 0⟩, ⟨3, 1⟩], 0 ≤ x.Parent) ∧
      [(⟨0, 0⟩ : Record), ⟨1, 0⟩, ⟨2, 0⟩, ⟨3, 1⟩].length ≤ 4) ∧
      referenceTree [⟨0, 0⟩, ⟨1, 0⟩, ⟨2, 0⟩, ⟨3, 1⟩] 4 0
        = .mk 0 [.mk 1 [.mk 3 []], .mk 2 []] ∧
      Build [⟨0, 0⟩, ⟨1, 0⟩, ⟨2, 0⟩, ⟨3, 1⟩]
        = some (some (referenceTree [⟨0, 0⟩, ⟨1, 0⟩, ⟨2, 0⟩, ⟨3, 1⟩] 4 0), none) :=
  ⟨⟨by decide, by decide, by decide⟩, rfl,
    Build_eq_referenceTree [⟨0, 0⟩, ⟨1, 0⟩, ⟨2, 0⟩, ⟨3, 1⟩] (by decide) (by decide) 4
      (by decide)⟩

/-! ## `Build` does not depend on the order of its input -/

theorem filter_parent_eq_of_perm {c1 c2 : List Record} (h : c1.Perm c2) (h1 : IDSorted c1)
    (h2 : IDSorted c2) (i : Int) :
    c1.filter (fun r => r.Parent == i) = c2.filter (fun r => r.Parent == i) := by
  haveI : IsAntisymm Record (fun a b => a.ID ≤ b.ID ∧ a.Parent = b.Parent) :=
    ⟨fun a b hab hba => by
      cases a; cases b
      simp only at hab hba
      simp only [Record.mk.injEq]
      omega⟩
  have key : ∀ c : List Record, IDSorted c →
      (c.filter (fun r => r.Parent == i)).Sorted
        (fun a b => a.ID ≤ b.ID ∧ a.Parent = b.Parent) := by
    intro c hc
    have hs : (c.filter (fun r => r.Parent == i)).Pairwise (fun a b => a.ID ≤ b.ID) :=
      List.Pairwise.sublist (List.filter_sublist _) hc
    refine List.Pairwise.imp_of_mem ?_ hs
    intro a b ha hb hab
    have hpa : a.Parent = i := by simpa using (List.mem_filter.1 ha).2
    have hpb : b.Parent = i := by simpa using (List.mem_filter.1 hb).2
    exact ⟨hab, hpa.trans hpb.symm⟩
  exact List.eq_of_perm_of_sorted (h.filter _) (key c1 h1) (key c2 h2)

theorem childLoop_perm (recur : Node → List Record → Option MarshalResult)
    (hrec : ∀ p c1 c2, c1.Perm c2 → IDSorted c1 → IDSorted c2 →
      SameRun (recur p c1) (recur p c2))
    (pid : Int) (matched : List Record) :
    ∀ (pending : List Record) (children : List Node) (rem1 rem2 : List Record),
      rem1.Perm rem2 → IDSorted rem1 → IDSorted rem2 →
      SameRun (childLoop recur pid matched pending children rem1)
        (childLoop recur pid matched pending children rem2) := by
  intro pending
  induction pending with
  | nil =>
    intro children rem1 rem2 hp h1 h2
    simp only [childLoop, SameRun]
    exact ⟨trivial, hp, h1, h2⟩
  | cons child rest ih =>
    intro children rem1 rem2 hp hs1 hs2
    rw [childLoop, childLoop]
    by_cases h1 : child.hasDuplicatesIn matched = true
    · rw [if_pos h1, if_pos h1]; simp [SameRun]
    by_cases h2 : pid > child.ID
    · rw [if_neg h1, if_pos h2, if_neg h1, if_pos h2]; simp [SameRun]
    by_cases h3 : child.Parent > child.ID
    · rw [if_neg h1, if_neg h2, if_pos h3, if_neg h1, if_neg h2, if_pos h3]; simp [SameRun]
    rw [if_neg h1, if_neg h2, if_neg h3, if_neg h1, if_neg h2, if_neg h3]
    simp only
    by_cases h4 : rem1.length > 0
    · have h4b : rem2.length > 0 := by rw [← hp.length_eq]; exact h4
      rw [if_pos h4, if_pos h4b]
      have hr := hrec (newNode child) rem1 rem2 hp hs1 hs2
      rcases e1 : recur (newNode child) rem1 with _ | ⟨n1, (err1 | l1)⟩ <;>
        rcases e2 : recur (newNode child) rem2 with _ | ⟨n2, (err2 | l2)⟩ <;>
        rw [e1, e2] at hr <;> simp only [SameRun] at hr ⊢
      · obtain ⟨rfl, rfl⟩ := hr
        exact ⟨rfl, rfl⟩
      · obtain ⟨rfl, hl, hl1, hl2⟩ := hr
        exact ih _ _ _ hl hl1 hl2
    · have h4b : ¬ rem2.length > 0 := by rw [← hp.length_eq]; exact h4
      rw [if_neg h4, if_neg h4b]
      exact ih _ _ _ hp hs1 hs2

theorem marshalChildrenFuel_perm : ∀ (fuel : Nat) (p : Node) (c1 c2 : List Record),
    c1.Perm c2 → IDSorted c1 → IDSorted c2 →
    SameRun (marshalChildrenFuel fuel p c1) (marshalChildrenFuel fuel p c2) := by
  intro fuel
  induction fuel with
  | zero => intro p c1 c2 _ _ _; simp [marshalChildrenFuel, SameRun]
  | succ f ih =>
    intro p c1 c2 hp hs1 hs2
    rw [marshalChildrenFuel, marshalChildrenFuel, where__eq, where__eq]
    simp only
    rw [filter_parent_eq_of_perm hp hs1 hs2 p.ID]
    have hl := childLoop_perm (marshalChildrenFuel f) ih p.ID
      (c2.filter (fun r => r.Parent == p.ID)) (c2.filter (fun r => r.Parent == p.ID))
      p.Children (c1.filter (fun r => !(r.Parent == p.ID)))
      (c2.filter (fun r => !(r.Parent == p.ID))) (hp.filter _)
      (List.Pairwise.sublist (List.filter_sublist _) hs1)
      (List.Pairwise.sublist (List.filter_sublist _) hs2)
    revert hl
    generalize childLoop (marshalChildrenFuel f) p.ID
      (c2.filter (fun r => r.Parent == p.ID)) (c2.filter (fun r => r.Parent == p.ID))
      p.Children (c1.filter (fun r => !(r.Parent == p.ID))) = a
    generalize childLoop (marshalChildrenFuel f) p.ID
      (c2.filter (fun r => r.Parent == p.ID)) (c2.filter (fun r => r.Parent == p.ID))
      p.Children (c2.filter (fun r => !(r.Parent == p.ID))) = b
    intro hl
    rcases a with _ | ⟨ch1, (err1 | l1)⟩ <;> rcases b with _ | ⟨ch2, (err2 | l2)⟩ <;>
      simp only [SameRun] at hl ⊢
    · obtain ⟨rfl, rfl⟩ := hl
      exact ⟨rfl, rfl⟩
    · obtain ⟨rfl, hl, hl1, hl2⟩ := hl
      exact ⟨rfl, hl, hl1, hl2⟩

theorem ids_eq_of_perm {s1 s2 : List Record} (hp : s1.Perm s2) (h1 : IDSorted s1)
    (h2 : IDSorted s2) : s1.map Record.ID = s2.map Record.ID :=
  List.eq_of_perm_of_sorted (r := (· ≤ ·)) (hp.map _) (List.pairwise_map.2 h1)
    (List.pairwise_map.2 h2)

theorem buildSorted_perm {s1 s2 : List Record} (hp : s1.Perm s2) (h1 : IDSorted s1)
    (h2 : IDSorted s2) : buildSorted s1 = buildSorted s2 := by
  have hlast : s1.getLast?.map Record.ID = s2.getLast?.map Record.ID := by
    rw [← List.getLast?_map, ← List.getLast?_map, ids_eq_of_perm hp h1 h2]
  have hf := hp.filter (fun r => r.ID == r.Parent)
  have hrun := marshalChildrenFuel_perm
    ((s1.filter (fun r => !(r.ID == r.Parent))).length + 1)
    (Node.mk 0 []) (s1.filter (fun r => !(r.ID == r.Parent)))
    (s2.filter (fun r => !(r.ID == r.Parent))) (hp.filter _)
    (List.Pairwise.sublist (List.filter_sublist _) h1)
    (List.Pairwise.sublist (List.filter_sublist _) h2)
  have hlen : (s2.filter (fun r => !(r.ID == r.Parent))).length
      = (s1.filter (fun r => !(r.ID == r.Parent))).length := (hp.filter _).length_eq.symm
  unfold buildSorted
  rw [where__eq, where__eq, hlast, hp.length_eq]
  by_cases hc : s2.getLast?.map Record.ID ≠ some ((s2.length : Int) - 1)
  · rw [if_pos hc, if_pos hc]
  rw [if_neg hc, if_neg hc]
  simp only
  rcases hf1 : s1.filter (fun r => r.ID == r.Parent) with _ | ⟨a, _ | ⟨b, l⟩⟩
  · rw [hf1] at hf
    rw [hf1, List.perm_nil.1 hf.symm]
  · rw [hf1] at hf
    rw [hf1, List.perm_singleton.1 hf.symm]
    simp only
    by_cases h0 : (newNode a).ID ≠ 0
    · rw [if_pos h0, if_pos h0]
    rw [if_neg h0, if_neg h0]
    have ha : a.ID = 0 := by simpa [newNode, Node.ID] using h0
    simp only [marshalChildren, newNode, Node.sortChildren, Node.ID, Node.Children,
      List.insertionSort, ha, hlen]
    revert hrun
    generalize marshalChildrenFuel ((s1.filter (fun r => !(r.ID == r.Parent))).length + 1)
      (Node.mk 0 []) (s1.filter (fun r => !(r.ID == r.Parent))) = x
    generalize marshalChildrenFuel ((s1.filter (fun r => !(r.ID == r.Parent))).length + 1)
      (Node.mk 0 []) (s2.filter (fun r => !(r.ID == r.Parent))) = y
    intro hrun
    rcases x with _ | ⟨n1, (err1 | l1)⟩ <;> rcases y with _ | ⟨n2, (err2 | l2)⟩ <;>
      simp only [SameRun] at hrun ⊢
    · obtain ⟨rfl, rfl⟩ := hrun
      rfl
    · obtain ⟨rfl, hl, _, _⟩ := hrun
      rw [hl.length_eq]
  · rw [hf1] at hf
    rcases hf2 : s2.filter (fun r => r.ID == r.Parent) with _ | ⟨a2, _ | ⟨b2, l2⟩⟩
    · rw [hf2] at hf; exact absurd hf.length_eq (by simp)
    · rw [hf2] at hf; exact absurd hf.length_eq (by simp)
    · rw [hf1, hf2]

theorem Build_eq_of_perm {r1 r2 : List Record} (hp : r1.Perm r2) : Build r1 = Build r2 := by
  unfold Build
  rw [hp.length_eq]
  by_cases h0 : r2.length = 0
  · rw [if_pos h0, if_pos h0]
  · rw [if_neg h0, if_neg h0]
    exact buildSorted_perm (((sortRecords_perm r1).trans hp).trans (sortRecords_perm r2).symm)
      (sortRecords_sorted r1) (sortRecords_sorted r2)

/-- C8: `Build` depends only on the multiset of its input.  For two record sequences
that are permutations of each other (any order, duplicate IDs allowed) the two calls
return the same result; so either both return an error, or both return the same tree
(the same node IDs, edges and order of children; no tree for the empty input) with a
nil error.  The last part says that the order `sort.Slice` leaves among records of equal
ID does not matter either: any two ID-sorted arrangements give the same result. -/
theorem Build_depends_only_on_multiset (r1 r2 : List Record) (hp : r1.Perm r2) :
    Build r1 = Build r2 ∧
      ((∃ n1 e1 n2 e2, Build r1 = some (n1, some e1) ∧ Build r2 = some (n2, some e2)) ∨
        ∃ t, Build r1 = some (t, none) ∧ Build r2 = some (t, none)) ∧
      ∀ s1 s2, s1.Perm r1 → IDSorted s1 → s2.Perm r2 → IDSorted s2 →
        buildSorted s1 = buildSorted s2 := by
  have heq := Build_eq_of_perm hp
  refine ⟨heq, ?_, fun s1 s2 h1 hs1 h2 hs2 =>
    buildSorted_perm ((h1.trans hp).trans h2.symm) hs1 hs2⟩
  rcases Build_cases r1 with ⟨_, h⟩ | ⟨_, t, h⟩ | ⟨_, n, e, h⟩
  · exact Or.inr ⟨none, h, heq ▸ h⟩
  · exact Or.inr ⟨some t, h, heq ▸ h⟩
  · exact Or.inl ⟨n, e, n, e, h, heq ▸ h⟩

/-- Witness of C8 on an input with a repeated ID, given in two orders. -/
theorem Build_depends_only_on_multiset_witness :
    [(⟨0, 0⟩ : Record), ⟨1, 0⟩, ⟨3, 0⟩, ⟨3, 1⟩].Perm [⟨3, 1⟩, ⟨3, 0⟩, ⟨1, 0⟩, ⟨0, 0⟩] ∧
      Build [⟨0, 0⟩, ⟨1, 0⟩, ⟨3, 0⟩, ⟨3, 1⟩] = Build [⟨3, 1⟩, ⟨3, 0⟩, ⟨1, 0⟩, ⟨0, 0⟩] ∧
      ((∃ n1 e1 n2 e2, Build [⟨0, 0⟩, ⟨1, 0⟩, ⟨3, 0⟩, ⟨3, 1⟩] = some (n1, some e1) ∧
          Build [⟨3, 1⟩, ⟨3, 0⟩, ⟨1, 0⟩, ⟨0, 0⟩] = some (n2, some e2)) ∨
        ∃ t, Build [⟨0, 0⟩, ⟨1, 0⟩, ⟨3, 0⟩, ⟨3, 1⟩] = some (t, none) ∧
          Build [⟨3, 1⟩, ⟨3, 0⟩, ⟨1, 0⟩, ⟨0, 0⟩] = some (t, none)) ∧
      ∀ s1 s2, s1.Perm [⟨0, 0⟩, ⟨1, 0⟩, ⟨3, 0⟩, ⟨3, 1⟩] → IDSorted s1 →
        s2.Perm [⟨3, 1⟩, ⟨3, 0⟩, ⟨1, 0⟩, ⟨0, 0⟩] → IDSorted s2 →
        buildSorted s1 = buildSorted s2 :=
  ⟨by decide, Build_depends_only_on_multiset _ _ (by decide)⟩

/-- Whatever ID-sorted arrangement of the input `sort.Slice` produces, the rest of
`Build` gives the result it gives on the arrangement of `sortRecords`. -/
theorem buildSorted_sortRecords {r s : List Record} (hp : s.Perm r) (hs : IDSorted s) :
    buildSorted s = buildSorted (sortRecords r) :=
  buildSorted_perm (hp.trans (sortRecords_perm r).symm) hs (sortRecords_sorted r)

/-! ## The errors `marshalChildren` can return -/

theorem childLoop_error_kinds (recur : Node → List Record → Option MarshalResult)
    (hrec : ∀ q d n e, recur q d = some (n, .error e) →
      e = .duplicates ∨ e = .invalidParent)
    (pid : Int) (matched : List Record) :
    ∀ (pending : List Record) (children : List Node) (rem : List Record)
      (ch : List Node) (e : BuildError),
      (∀ c ∈ pending, c.Parent = pid) →
      childLoop recur pid matched pending children rem = some (ch, .error e) →
      e = .duplicates ∨ e = .invalidParent := by
  intro pending
  induction pending with
  | nil => intro children rem ch e _ h; simp [childLoop] at h
  | cons child rest ih =>
    intro children rem ch e hpar h
    have hrest := fun c hc => hpar c (List.mem_cons_of_mem _ hc)
    have hchild := hpar child (List.mem_cons_self _ _)
    rw [childLoop] at h
    by_cases h1 : child.hasDuplicatesIn matched = true
    · rw [if_pos h1] at h
      simp only [Option.some.injEq, Prod.mk.injEq, Except.error.injEq] at h
      exact Or.inl h.2.symm
    by_cases h2 : pid > child.ID
    · rw [if_neg h1, if_pos h2] at h
      simp only [Option.some.injEq, Prod.mk.injEq, Except.error.injEq] at h
      exact Or.inr h.2.symm
    have h3 : ¬ child.Parent > child.ID := by rw [hchild]; exact h2
    rw [if_neg h1, if_neg h2, if_neg h3] at h
    simp only at h
    by_cases h4 : rem.length > 0
    · rw [if_pos h4] at h
      split at h
      · exact absurd h (by simp)
      · next n err hr =>
        simp only [Option.some.injEq, Prod.mk.injEq, Except.error.injEq] at h
        rw [← h.2]
        exact hrec _ _ _ _ hr
      · exact ih _ _ _ _ hrest h
    · rw [if_neg h4] at h
      exact ih _ _ _ _ hrest h

theorem marshalChildrenFuel_error_kinds : ∀ (fuel : Nat) (p : Node) (c : List Record)
    (n : Node) (e : BuildError), marshalChildrenFuel fuel p c = some (n, .error e) →
    e = .duplicates ∨ e = .invalidParent := by
  intro fuel
  induction fuel with
  | zero => intro p c n e h; simp [marshalChildrenFuel] at h
  | succ f ih =>
    intro p c n e h
    rw [marshalChildrenFuel, where__eq] at h
    simp only at h
    split at h
    · exact absurd h (by simp)
    · next ch err hl =>
      simp only [Option.some.injEq, Prod.mk.injEq, Except.error.injEq] at h
      rw [← h.2]
      refine childLoop_error_kinds _ ih _ _ _ _ _ _ _ ?_ hl
      intro x hx
      simpa using (List.mem_filter.1 hx).2
    · exact absurd h (by simp)

theorem buildSorted_error_kinds {s : List Record} {n : Option Node} {e : BuildError}
    (h : buildSorted s = some (n, some e)) : e ≠ .invalidParentPidCid := by
  unfold buildSorted at h
  by_cases h1 : s.getLast?.map Record.ID ≠ some ((s.length : Int) - 1)
  · rw [if_pos h1] at h
    simp only [Option.some.injEq, Prod.mk.injEq] at h
    rw [← h.2]; decide
  rw [if_neg h1] at h
  simp only at h
  split at h
  · next root hroot =>
    by_cases h2 : (newNode root).ID ≠ 0
    · rw [if_pos h2] at h
      simp only [Option.some.injEq, Prod.mk.injEq] at h
      rw [← h.2]; decide
    rw [if_neg h2] at h
    split at h
    · exact absurd h (by simp)
    · next node fin hm =>
      by_cases h3 : fin.length > 0
      · rw [if_pos h3] at h
        simp only [Option.some.injEq, Prod.mk.injEq] at h
        rw [← h.2]; decide
      · rw [if_neg h3] at h; exact absurd h (by simp)
    · next node err hm =>
      simp only [Option.some.injEq, Prod.mk.injEq] at h
      rw [← h.2]
      rcases marshalChildrenFuel_error_kinds _ _ _ _ _ hm with he | he <;> rw [he] <;> decide
  · simp only [Option.some.injEq, Prod.mk.injEq] at h
    rw [← h.2]; decide

/-- C17: the self-consistency guard is unreachable.  On no input does `Build` return the
error "invalid parent id detected; pid > cid": every record the loop ranges over has
`Parent == parent.ID`, so once `parent.ID > child.ID` has passed, `child.Parent >
child.ID` cannot hold. -/
theorem Build_never_returns_pid_cid_error (r : List Record) (n : Option Node) :
    Build r ≠ some (n, some .invalidParentPidCid) ∧
      ∀ (p : Node) (c : List Record) (m : Node),
        marshalChildren p c ≠ some (m, .error .invalidParentPidCid) := by
  constructor
  · intro h
    unfold Build at h
    by_cases h0 : r.length = 0
    · rw [if_pos h0] at h; exact absurd h (by simp)
    · rw [if_neg h0] at h
      exact buildSorted_error_kinds h rfl
  · intro p c m h
    rcases marshalChildrenFuel_error_kinds _ _ _ _ _ h with he | he <;>
      exact absurd he (by decide)

/-! ## The checks `Build` makes before assembly -/

theorem IsLargestID.congr_perm {r s : List Record} {m : Int} (h : IsLargestID r m)
    (hp : s.Perm r) : IsLargestID s m := by
  obtain ⟨⟨x, hx, hxm⟩, hle⟩ := h
  exact ⟨⟨x, hp.mem_iff.2 hx, hxm⟩, fun y hy => hle y (hp.mem_iff.1 hy)⟩

theorem sorted_getLast_le {s : List Record} (hs : IDSorted s) {a : Record}
    (ha : s.getLast? = some a) : ∀ x ∈ s, x.ID ≤ a.ID := by
  obtain ⟨ys, rfl⟩ := List.getLast?_eq_some_iff.1 ha
  intro x hx
  rcases List.mem_append.1 hx with hx | hx
  · exact (List.pairwise_append.1 hs).2.2 x hx a (by simp)
  · have : x = a := by simpa using hx
    rw [this]

theorem sorted_getLast_iff {s : List Record} (hs : IDSorted s) (m : Int) :
    s.getLast?.map Record.ID = some m ↔ IsLargestID s m := by
  constructor
  · intro h
    obtain ⟨a, ha, ham⟩ := Option.map_eq_some'.1 h
    refine ⟨⟨a, List.mem_of_getLast?_eq_some ha, ham⟩, fun x hx => ?_⟩
    rw [← ham]
    exact sorted_getLast_le hs ha x hx
  · rintro ⟨⟨x, hx, hxm⟩, hle⟩
    cases hl : s.getLast? with
    | none =>
      rw [List.getLast?_eq_none_iff] at hl
      subst hl
      simp at hx
    | some a =>
      have h1 := sorted_getLast_le hs hl x hx
      have h2 := hle a (List.mem_of_getLast?_eq_some hl)
      simp only [Option.map_some', Option.some.injEq]
      omega

theorem buildSorted_non_contiguous {s : List Record}
    (h : s.getLast?.map Record.ID ≠ some ((s.length : Int) - 1)) :
    buildSorted s = some (none, some .nonContiguous) := by
  unfold buildSorted
  rw [if_pos h]

theorem buildSorted_root_cardinality {s : List Record}
    (h : s.getLast?.map Record.ID = some ((s.length : Int) - 1))
    (hroot : s.countP (fun x => x.ID == x.Parent) ≠ 1) :
    buildSorted s = some (none, some .rootCardinality) := by
  unfold buildSorted
  rw [if_neg (not_not.2 h), where__eq]
  simp only
  rw [List.countP_eq_length_filter] at hroot
  rcases hf : s.filter (fun r => r.ID == r.Parent) with _ | ⟨a, _ | ⟨b, l⟩⟩
  · rw [hf]
  · rw [hf] at hroot; simp at hroot
  · rw [hf]

theorem Build_nonempty {r : List Record} (hne : r ≠ []) :
    Build r = buildSorted (sortRecords r) := by
  unfold Build
  rw [if_neg (by simpa using hne)]

/-- C12: for every non-empty input of length `n` whose largest ID is not `n-1`, `Build`
fails with the error "non contiguous ids detected" (and no node), whatever else is wrong
with the input. -/
theorem Build_non_contiguous (r : List Record) (hne : r ≠ [])
    (h : ¬ IsLargestID r ((r.length : Int) - 1)) :
    Build r = some (none, some .nonContiguous) := by
  rw [Build_nonempty hne]
  apply buildSorted_non_contiguous
  intro hl
  rw [sorted_getLast_iff (sortRecords_sorted r), (sortRecords_perm r).length_eq] at hl
  exact h (hl.congr_perm (sortRecords_perm r).symm)

/-- Witness of C12: the input of the specification with ID 2 missing. -/
theorem Build_non_contiguous_witness :
    ([(⟨0, 0⟩ : Record), ⟨1, 0⟩, ⟨3, 1⟩] ≠ [] ∧
      ¬ IsLargestID [⟨0, 0⟩, ⟨1, 0⟩, ⟨3, 1⟩]
        (([(⟨0, 0⟩ : Record), ⟨1, 0⟩, ⟨3, 1⟩].length : Int) - 1)) ∧
      Build [⟨0, 0⟩, ⟨1, 0⟩, ⟨3, 1⟩] = some (none, some .nonContiguous) :=
  ⟨⟨by decide, by decide⟩,
    Build_non_contiguous [⟨0, 0⟩, ⟨1, 0⟩, ⟨3, 1⟩] (by decide) (by decide)⟩

/-- C13: for every non-empty input of length `n` whose largest ID is `n-1` and in which
the number of records with `ID == Parent` is not exactly one, `Build` fails with the
error "records must have exactly 1 parent Record where ID == Parent" (and no node). -/
theorem Build_root_cardinality (r : List Record) (hne : r ≠ [])
    (hmax : IsLargestID r ((r.length : Int) - 1))
    (hroot : r.countP (fun x => x.ID == x.Parent) ≠ 1) :
    Build r = some (none, some .rootCardinality) := by
  rw [Build_nonempty hne]
  have hp := sortRecords_perm r
  apply buildSorted_root_cardinality
  · rw [sorted_getLast_iff (sortRecords_sorted r), hp.length_eq]
    exact hmax.congr_perm hp
  · rw [hp.countP_eq]
    exact hroot

/-- Witness of C13: the input of the specification without a self-parented record. -/
theorem Build_root_cardinality_witness :
    ([(⟨0, 1⟩ : Record), ⟨1, 0⟩] ≠ [] ∧
      IsLargestID [⟨0, 1⟩, ⟨1, 0⟩] (([(⟨0, 1⟩ : Record), ⟨1, 0⟩].length : Int) - 1) ∧
      [(⟨0, 1⟩ : Record), ⟨1, 0⟩].countP (fun x => x.ID == x.Parent) ≠ 1) ∧
      Build [⟨0, 1⟩, ⟨1, 0⟩] = some (none, some .rootCardinality) :=
  ⟨⟨by decide, by decide, by decide⟩,
    Build_root_cardinality [⟨0, 1⟩, ⟨1, 0⟩] (by decide) (by decide) (by decide)⟩

/-! ## Every attached record has its parent in the tree -/

theorem edge_parent_mem_flatten {t : Node} {x : Record} (hx : x ∈ t.flatten) :
    ∃ z ∈ t.flatten, z.ID = x.Parent := by
  unfold Node.flatten at hx
  rcases List.mem_cons.1 hx with rfl | hx
  · exact ⟨⟨t.ID, t.ID⟩, by simp [Node.flatten], rfl⟩
  · obtain ⟨y, hy, hxy⟩ := List.mem_flatMap.1 hx
    obtain ⟨c, _, rfl⟩ := List.mem_map.1 hxy
    have : y.ID ∈ t.flatten.map Record.ID :=
      (flatten_ids_perm t).mem_iff.2 (List.mem_map_of_mem _ hy)
    obtain ⟨z, hz, hzy⟩ := List.mem_map.1 this
    exact ⟨z, hz, hzy⟩

/-- C14: an input that contains a record whose Parent is not the ID of any record of the
input makes `Build` return a non-nil error. -/
theorem Build_rejects_dangling_parent (r : List Record) (x : Record) (hx : x ∈ r)
    (hd : ∀ y ∈ r, y.ID ≠ x.Parent) : ∃ n e, Build r = some (n, some e) := by
  rcases Build_cases r with ⟨h0, _⟩ | ⟨_, t, ht⟩ | ⟨_, hne⟩
  · subst h0; simp at hx
  · have hflat : t.flatten.Perm r :=
      (buildSorted_flatten (Build_ok ht).2).trans (sortRecords_perm r)
    obtain ⟨z, hz, hzx⟩ := edge_parent_mem_flatten (hflat.mem_iff.2 hx)
    exact absurd hzx (hd z (hflat.mem_iff.1 hz))
  · exact hne

/-- Witness of C14: in the input of the specification record `{2, 5}` refers to a parent
that does not exist, and `Build` fails with the orphan error. -/
theorem Build_rejects_dangling_parent_witness :
    ((⟨2, 5⟩ : Record) ∈ [(⟨0, 0⟩ : Record), ⟨1, 0⟩, ⟨2, 5⟩] ∧
      ∀ y ∈ [(⟨0, 0⟩ : Record), ⟨1, 0⟩, ⟨2, 5⟩], y.ID ≠ (⟨2, 5⟩ : Record).Parent) ∧
      (∃ n e, Build [⟨0, 0⟩, ⟨1, 0⟩, ⟨2, 5⟩] = some (n, some e)) ∧
      Build [⟨0, 0⟩, ⟨1, 0⟩, ⟨2, 5⟩] = some (none, some .orphans) :=
  ⟨⟨by decide, by decide⟩,
    Build_rejects_dangling_parent [⟨0, 0⟩, ⟨1, 0⟩, ⟨2, 5⟩] ⟨2, 5⟩ (by decide) (by decide),
    rfl⟩

/-! ## The contract of `marshalChildren` -/

theorem marshalChildrenFuel_contract {fuel : Nat} {p : Node} {c : List Record} {n : Node}
    {L : List Record} (h : marshalChildrenFuel fuel p c = some (n, .ok L)) :
    L.Sublist c ∧
      (∃ attached : List Record,
        n.edges.Perm (p.edges ++ attached) ∧ (attached ++ L).Perm c) ∧
      ∀ x ∈ L, x.Parent ≠ p.ID := by
  obtain ⟨kids, hk, rfl⟩ := marshalChildrenFuel_ok _ _ _ _ _ h
  refine ⟨hk.sublist.trans (List.filter_sublist _),
    ⟨c.filter (fun r => r.Parent == p.ID) ++ edgesOf kids, ?_, ?_⟩, ?_⟩
  · have hs := List.perm_insertionSort (fun a b : Node => a.ID ≤ b.ID) (p.Children ++ kids)
    have h1 : (kids.map (fun k => (⟨k.ID, p.ID⟩ : Record)))
        = c.filter (fun r => r.Parent == p.ID) :=
      map_edge_eq_of_ids hk.kids_ids (by
        intro x hx
        simpa using (List.mem_filter.1 hx).2)
    have h4 := hs.map (fun k => (⟨k.ID, p.ID⟩ : Record))
    have h5 := edgesOf_perm hs
    have hp : p.edges = p.Children.map (fun k => (⟨k.ID, p.ID⟩ : Record))
        ++ edgesOf p.Children := by
      cases p with
      | mk i cs => simp [edges_mk, Node.ID, Node.Children]
    rw [edges_mk, hp]
    rw [List.map_append, h1] at h4
    rw [edgesOf_append] at h5
    rw [List.perm_iff_count] at h4 h5 ⊢
    intro a
    have e4 := h4 a
    have e5 := h5 a
    simp only [List.count_append] at e4 e5 ⊢
    omega
  · have h2 := hk.edges_perm
    have h3 := List.filter_append_perm (fun r : Record => r.Parent == p.ID) c
    rw [List.perm_iff_count] at h2 h3 ⊢
    intro a
    have e2 := h2 a
    have e3 := h3 a
    simp only [List.count_append] at e2 e3 ⊢
    omega
  · intro x hx
    simpa using (List.mem_filter.1 (hk.sublist.subset hx)).2

/-- C15: the consume-and-return-leftover contract of `marshalChildren`.  Whenever the
call returns no error, (1) the leftover is a subsequence of the candidates, in the same
relative order; (2) there is a list `attached` of records, the ones turned into nodes
beneath the parent (at any depth) by the call, such that the (ID, parent ID) pairs below
the returned parent node are those below the parent before the call plus `attached`,
and `attached` together with the leftover is a permutation of the candidates; (3) no
leftover record has `Parent` equal to the parent's ID. -/
theorem marshalChildren_contract (p : Node) (c : List Record) (n : Node)
    (L : List Record) (h : marshalChildren p c = some (n, .ok L)) :
    L.Sublist c ∧
      (∃ attached : List Record,
        n.edges.Perm (p.edges ++ attached) ∧ (attached ++ L).Perm c) ∧
      ∀ x ∈ L, x.Parent ≠ p.ID :=
  marshalChildrenFuel_contract h

/-- Witness of C15: under a fresh node 0 the records `{1,0}` and `{2,1}` are attached
and `{5,7}` is handed back. -/
theorem marshalChildren_contract_witness :
    marshalChildren (.mk 0 []) [⟨5, 7⟩, ⟨1, 0⟩, ⟨2, 1⟩]
        = some (.mk 0 [.mk 1 [.mk 2 []]], .ok [⟨5, 7⟩]) ∧
      (Node.mk 0 [.mk 1 [.mk 2 []]]).edges = [⟨1, 0⟩, ⟨2, 1⟩] ∧
      [(⟨5, 7⟩ : Record)].Sublist [⟨5, 7⟩, ⟨1, 0⟩, ⟨2, 1⟩] ∧
      (∃ attached : List Record,
        (Node.mk 0 [.mk 1 [.mk 2 []]]).edges.Perm ((Node.mk 0 []).edges ++ attached) ∧
          (attached ++ [(⟨5, 7⟩ : Record)]).Perm [⟨5, 7⟩, ⟨1, 0⟩, ⟨2, 1⟩]) ∧
      ∀ x ∈ [(⟨5, 7⟩ : Record)], x.Parent ≠ (Node.mk 0 []).ID :=
  ⟨rfl, rfl, marshalChildren_contract (.mk 0 []) [⟨5, 7⟩, ⟨1, 0⟩, ⟨2, 1⟩] _ _ rfl⟩

/-! ## Termination: every recursive call is on a strictly shorter sequence -/

theorem childLoopCalls_sublist (recur : Node → List Record → Option MarshalResult)
    (hsub : ∀ q d n L, recur q d = some (n, .ok L) → L.Sublist d)
    (pid : Int) (matched : List Record) :
    ∀ (pending rem : List Record), ∀ call ∈ childLoopCalls recur pid matched pending rem,
      pending ≠ [] ∧ call.2 ≠ [] ∧ call.2.Sublist rem := by
  intro pending
  induction pending with
  | nil => intro rem call h; simp [childLoopCalls] at h
  | cons child rest ih =>
    intro rem call h
    rw [childLoopCalls] at h
    by_cases h1 : child.hasDuplicatesIn matched = true
    · rw [if_pos h1] at h; simp at h
    by_cases h2 : pid > child.ID
    · rw [if_neg h1, if_pos h2] at h; simp at h
    by_cases h3 : child.Parent > child.ID
    · rw [if_neg h1, if_neg h2, if_pos h3] at h; simp at h
    rw [if_neg h1, if_neg h2, if_neg h3] at h
    simp only at h
    by_cases h4 : rem.length > 0
    · rw [if_pos h4] at h
      rcases List.mem_cons.1 h with rfl | h
      · refine ⟨by simp, ?_, List.Sublist.refl _⟩
        intro h0
        simp only at h0
        rw [h0] at h4
        exact absurd h4 (by simp)
      · split at h
        · next n rem1 hr =>
          obtain ⟨_, hne, hs⟩ := ih rem1 call h
          exact ⟨by simp, hne, hs.trans (hsub _ _ _ _ hr)⟩
        · simp at h
    · rw [if_neg h4] at h
      obtain ⟨_, hne, hs⟩ := ih rem call h
      exact ⟨by simp, hne, hs⟩

theorem childLoop_congr_calls (recur1 recur2 : Node → List Record → Option MarshalResult)
    (pid : Int) (matched : List Record) :
    ∀ (pending : List Record) (children : List Node) (rem : List Record),
      (∀ call ∈ childLoopCalls recur1 pid matched pending rem,
        recur1 call.1 call.2 = recur2 call.1 call.2) →
      childLoop recur1 pid matched pending children rem
        = childLoop recur2 pid matched pending children rem := by
  intro pending
  induction pending with
  | nil => intro children rem _; rfl
  | cons child rest ih =>
    intro children rem h
    rw [childLoopCalls] at h
    rw [childLoop, childLoop]
    by_cases h1 : child.hasDuplicatesIn matched = true
    · rw [if_pos h1, if_pos h1]
    by_cases h2 : pid > child.ID
    · rw [if_neg h1, if_pos h2, if_neg h1, if_pos h2]
    by_cases h3 : child.Parent > child.ID
    · rw [if_neg h1, if_neg h2, if_pos h3, if_neg h1, if_neg h2, if_pos h3]
    rw [if_neg h1, if_neg h2, if_neg h3] at h
    rw [if_neg h1, if_neg h2, if_neg h3, if_neg h1, if_neg h2, if_neg h3]
    simp only at h ⊢
    by_cases h4 : rem.length > 0
    · rw [if_pos h4] at h
      rw [if_pos h4, if_pos h4]
      have hcall := h (newNode child, rem) (List.mem_cons_self _ _)
      simp only at hcall
      rw [← hcall]
      rcases hr : recur1 (newNode child) rem with _ | ⟨n, (err | rem1)⟩
      · rfl
      · rfl
      · simp only
        apply ih
        intro call hc
        apply h call
        rw [hr]
        exact List.mem_cons_of_mem _ hc
    · rw [if_neg h4] at h
      rw [if_neg h4, if_neg h4]
      exact ih _ _ h

theorem marshalChildrenFuel_fuel_irrelevant : ∀ (f1 f2 : Nat) (p : Node) (c : List Record),
    c.length < f1 → c.length < f2 →
    marshalChildrenFuel f1 p c = marshalChildrenFuel f2 p c := by
  intro f1
  induction f1 with
  | zero => intro f2 p c h; omega
  | succ a ih =>
    intro f2 p c h1 h2
    cases f2 with
    | zero => omega
    | succ b =>
      rw [marshalChildrenFuel, marshalChildrenFuel, where__eq]
      simp only
      have hloop : childLoop (marshalChildrenFuel a) p.ID
          (c.filter (fun r => r.Parent == p.ID)) (c.filter (fun r => r.Parent == p.ID))
          p.Children (c.filter (fun r => !(r.Parent == p.ID)))
          = childLoop (marshalChildrenFuel b) p.ID
          (c.filter (fun r => r.Parent == p.ID)) (c.filter (fun r => r.Parent == p.ID))
          p.Children (c.filter (fun r => !(r.Parent == p.ID))) := by
        apply childLoop_congr_calls
        intro call hc
        obtain ⟨hne, _, hs⟩ := childLoopCalls_sublist _
          (fun q d n L h => (marshalChildrenFuel_contract h).1) _ _ _ _ call hc
        have hsplit := (List.filter_append_perm (fun r : Record => r.Parent == p.ID) c).length_eq
        rw [List.length_append] at hsplit
        have hpos : 0 < (c.filter (fun r => r.Parent == p.ID)).length :=
          List.length_pos.2 hne
        have hlen := hs.length_le
        exact ih b call.1 call.2 (by omega) (by omega)
      rw [hloop]

theorem recursiveCalls_shorter (p : Node) (c : List Record) :
    ∀ call ∈ recursiveCalls p c,
      c.filter (fun r => r.Parent == p.ID) ≠ [] ∧ call.2 ≠ [] ∧
      call.2.Sublist (c.filter (fun r => !(r.Parent == p.ID))) ∧
      call.2.length < c.length := by
  intro call hc
  unfold recursiveCalls at hc
  rw [where__eq] at hc
  dsimp only at hc
  obtain ⟨hne, hne2, hs⟩ := childLoopCalls_sublist _
    (fun q d n L h => (marshalChildrenFuel_contract h).1) _ _ _ _ call hc
  refine ⟨hne, hne2, hs, ?_⟩
  have hsplit := (List.filter_append_perm (fun r : Record => r.Parent == p.ID) c).length_eq
  rw [List.length_append] at hsplit
  have hpos : 0 < (c.filter (fun r => r.Parent == p.ID)).length := List.length_pos.2 hne
  have hlen := hs.length_le
  omega

theorem marshalChildren_unfold (p : Node) (c : List Record) :
    marshalChildren p c =
      match childLoop marshalChildren p.ID (c.filter (fun r => r.Parent == p.ID))
          (c.filter (fun r => r.Parent == p.ID)) p.Children
          (c.filter (fun r => !(r.Parent == p.ID))) with
      | none => none
      | some (children, .error err) => some (.mk p.ID children, .error err)
      | some (children, .ok rem) => some ((Node.mk p.ID children).sortChildren, .ok rem) := by
  have hloop : childLoop (marshalChildrenFuel c.length) p.ID
      (c.filter (fun r => r.Parent == p.ID)) (c.filter (fun r => r.Parent == p.ID))
      p.Children (c.filter (fun r => !(r.Parent == p.ID)))
      = childLoop marshalChildren p.ID
      (c.filter (fun r => r.Parent == p.ID)) (c.filter (fun r => r.Parent == p.ID))
      p.Children (c.filter (fun r => !(r.Parent == p.ID))) := by
    apply childLoop_congr_calls
    intro call hc
    have hc2 : call ∈ recursiveCalls p c := by
      unfold recursiveCalls
      rw [where__eq]
      exact hc
    obtain ⟨_, _, _, hlt⟩ := recursiveCalls_shorter p c call hc2
    exact marshalChildrenFuel_fuel_irrelevant _ _ _ _ hlt (Nat.lt_succ_self _)
  conv_lhs => rw [marshalChildren, marshalChildrenFuel, where__eq]
  simp only
  rw [hloop]

/-- C16: `marshalChildren` terminates on every parent node and every candidate sequence,
and so does `Build`.  In order: the call returns a result; any larger recursion bound
gives the same result; every recursive call the invocation makes happens under a
non-empty matched set, on a non-empty subsequence of the unmatched remainder, which is
strictly shorter than the candidate sequence of the invocation; the loop consults the
recursive call at these arguments only; the embedding satisfies the recursive
definition of the source, the recursive call being `marshalChildren` itself; and
`Build` returns on every input. -/
theorem marshalChildren_terminates (p : Node) (c : List Record) :
    (∃ res, marshalChildren p c = some res) ∧
    (∀ fuel, c.length < fuel → marshalChildrenFuel fuel p c = marshalChildren p c) ∧
    (∀ call ∈ recursiveCalls p c,
      c.filter (fun r => r.Parent == p.ID) ≠ [] ∧ call.2 ≠ [] ∧
      call.2.Sublist (c.filter (fun r => !(r.Parent == p.ID))) ∧
      call.2.length < c.length) ∧
    (∀ recur : Node → List Record → Option MarshalResult,
      (∀ call ∈ recursiveCalls p c,
        marshalChildrenFuel c.length call.1 call.2 = recur call.1 call.2) →
      childLoop (marshalChildrenFuel c.length) p.ID
          (c.filter (fun r => r.Parent == p.ID)) (c.filter (fun r => r.Parent == p.ID))
          p.Children (c.filter (fun r => !(r.Parent == p.ID)))
        = childLoop recur p.ID
          (c.filter (fun r => r.Parent == p.ID)) (c.filter (fun r => r.Parent == p.ID))
          p.Children (c.filter (fun r => !(r.Parent == p.ID)))) ∧
    (marshalChildren p c =
      match childLoop marshalChildren p.ID (c.filter (fun r => r.Parent == p.ID))
          (c.filter (fun r => r.Parent == p.ID)) p.Children
          (c.filter (fun r => !(r.Parent == p.ID))) with
      | none => none
      | some (children, .error err) => some (.mk p.ID children, .error err)
      | some (children, .ok rem) =>
        some ((Node.mk p.ID children).sortChildren, .ok rem)) ∧
    ∀ r : List Record, ∃ res, Build r = some res := by
  refine ⟨marshalChildren_total p c, ?_, recursiveCalls_shorter p c, ?_,
    marshalChildren_unfold p c, ?_⟩
  · intro fuel hf
    exact marshalChildrenFuel_fuel_irrelevant _ _ _ _ hf (Nat.lt_succ_self _)
  · intro recur h
    apply childLoop_congr_calls
    intro call hc
    apply h
    unfold recursiveCalls
    rw [where__eq]
    exact hc
  · intro r
    rcases Build_cases r with ⟨_, h⟩ | ⟨_, t, h⟩ | ⟨_, n, e, h⟩
    · exact ⟨_, h⟩
    · exact ⟨_, h⟩
    · exact ⟨_, h⟩

/-! ## When the duplicate check is the one that reports -/

theorem childLoop_error_duplicates (recur : Node → List Record → Option MarshalResult)
    (hrec : ∀ q d n e, (∀ x ∈ d, x.Parent ≤ x.ID) → recur q d = some (n, .error e) →
      e = .duplicates)
    (hsub : ∀ q d n L, recur q d = some (n, .ok L) → L.Sublist d)
    (pid : Int) (matched : List Record) :
    ∀ (pending : List Record) (children : List Node) (rem : List Record)
      (ch : List Node) (e : BuildError),
      (∀ c ∈ pending, c.Parent = pid ∧ c.Parent ≤ c.ID) →
      (∀ x ∈ rem, x.Parent ≤ x.ID) →
      childLoop recur pid matched pending children rem = some (ch, .error e) →
      e = .duplicates := by
  intro pending
  induction pending with
  | nil => intro children rem ch e _ _ h; simp [childLoop] at h
  | cons child rest ih =>
    intro children rem ch e hpar hrem h
    have hrest := fun c hc => hpar c (List.mem_cons_of_mem _ hc)
    obtain ⟨hc1, hc2⟩ := hpar child (List.mem_cons_self _ _)
    rw [childLoop] at h
    by_cases h1 : child.hasDuplicatesIn matched = true
    · rw [if_pos h1] at h
      simp only [Option.some.injEq, Prod.mk.injEq, Except.error.injEq] at h
      exact h.2.symm
    have h2 : ¬ pid > child.ID := by omega
    have h3 : ¬ child.Parent > child.ID := by omega
    rw [if_neg h1, if_neg h2, if_neg h3] at h
    simp only at h
    by_cases h4 : rem.length > 0
    · rw [if_pos h4] at h
      split at h
      · exact absurd h (by simp)
      · next n err hr =>
        simp only [Option.some.injEq, Prod.mk.injEq, Except.error.injEq] at h
        rw [← h.2]
        exact hrec _ _ _ _ hrem hr
      · next n rem1 hr =>
        exact ih _ _ _ _ hrest (fun x hx => hrem x ((hsub _ _ _ _ hr).subset hx)) h
    · rw [if_neg h4] at h
      exact ih _ _ _ _ hrest hrem h

theorem marshalChildrenFuel_error_duplicates : ∀ (fuel : Nat) (p : Node) (c : List Record)
    (n : Node) (e : BuildError), (∀ x ∈ c, x.Parent ≤ x.ID) →
    marshalChildrenFuel fuel p c = some (n, .error e) → e = .duplicates := by
  intro fuel
  induction fuel with
  | zero => intro p c n e _ h; simp [marshalChildrenFuel] at h
  | succ f ih =>
    intro p c n e hle h
    rw [marshalChildrenFuel, where__eq] at h
    simp only at h
    split at h
    · exact absurd h (by simp)
    · next ch err hl =>
      simp only [Option.some.injEq, Prod.mk.injEq, Except.error.injEq] at h
      rw [← h.2]
      refine childLoop_error_duplicates _ ih
        (fun q d n L h => (marshalChildrenFuel_contract h).1) _ _ _ _ _ _ _ ?_ ?_ hl
      · intro x hx
        obtain ⟨hxc, hxp⟩ := List.mem_filter.1 hx
        exact ⟨by simpa using hxp, hle x hxc⟩
      · intro x hx
        exact hle x (List.mem_filter.1 hx).1
    · exact absurd h (by simp)

theorem no_descending_chain_of_finite (L : List Record)
    (hstep : ∀ x ∈ L, ∃ y ∈ L, y.ID < x.ID) : L = [] := by
  by_contra hne
  have hfin : L.toFinset.Nonempty := by
    obtain ⟨a, l, rfl⟩ := List.exists_cons_of_ne_nil hne
    exact ⟨a, by simp⟩
  obtain ⟨x, hx, hmin⟩ := Finset.exists_min_image L.toFinset Record.ID hfin
  obtain ⟨y, hy, hlt⟩ := hstep x (List.mem_toFinset.1 hx)
  have := hmin y (List.mem_toFinset.2 hy)
  omega

theorem buildSorted_after_checks {s : List Record}
    (hlast : s.getLast?.map Record.ID = some ((s.length : Int) - 1))
    (hroot : s.filter (fun r => r.ID == r.Parent) = [⟨0, 0⟩]) :
    buildSorted s =
      match marshalChildren (.mk 0 []) (s.filter (fun r => !(r.ID == r.Parent))) with
      | none => none
      | some (node, .ok finalRemainder) =>
        if finalRemainder.length > 0 then some (none, some .orphans)
        else some (some node, none)
      | some (node, .error err) => some (some node, some err) := by
  unfold buildSorted
  rw [if_neg (not_not.2 hlast), where__eq]
  simp only [hroot]
  rw [if_neg (by simp [newNode, Node.ID])]
  rfl

theorem marshalChildren_root_leftover_nil {s : List Record} {n : Node} {L : List Record}
    (hroot : s.filter (fun r => r.ID == r.Parent) = [⟨0, 0⟩])
    (hpar : ∀ x ∈ s, x.ID ≠ x.Parent → x.Parent < x.ID ∧ ∃ y ∈ s, y.ID = x.Parent)
    (h : marshalChildren (.mk 0 []) (s.filter (fun r => !(r.ID == r.Parent)))
      = some (n, .ok L)) : L = [] := by
  obtain ⟨kids, hk, _⟩ := marshalChildrenFuel_ok _ _ _ _ _ h
  simp only [Node.ID] at hk
  apply no_descending_chain_of_finite
  intro x hx
  have hxU := hk.sublist.subset hx
  have hxR := (List.filter_sublist _).subset hxU
  have hxs : x ∈ s := (List.filter_sublist _).subset hxR
  have hp0 : ¬ x.Parent = 0 := by simpa using (List.mem_filter.1 hxU).2
  have hnsp : ¬ x.ID = x.Parent := by simpa using (List.mem_filter.1 hxR).2
  obtain ⟨hlt, y, hy, hyid⟩ := hpar x hxs hnsp
  have hynsp : ¬ y.ID = y.Parent := by
    intro hsp
    have hyroot : y ∈ s.filter (fun r => r.ID == r.Parent) :=
      List.mem_filter.2 ⟨hy, by simpa using hsp⟩
    rw [hroot] at hyroot
    have : y = ⟨0, 0⟩ := by simpa using hyroot
    rw [this] at hyid
    exact hp0 hyid.symm
  have hyR : y ∈ s.filter (fun r => !(r.ID == r.Parent)) :=
    List.mem_filter.2 ⟨hy, by simpa using hynsp⟩
  have hyMU : y ∈ (s.filter (fun r => !(r.ID == r.Parent))).filter
        (fun r => r.Parent == 0) ∨
      y ∈ (s.filter (fun r => !(r.ID == r.Parent))).filter
        (fun r => !(r.Parent == 0)) := by
    by_cases hyp : y.Parent = 0
    · exact Or.inl (List.mem_filter.2 ⟨hyR, by simpa using hyp⟩)
    · exact Or.inr (List.mem_filter.2 ⟨hyR, by simpa using hyp⟩)
  exact ⟨y, hk.parent_not_consumed x hx y hyid hyMU, by omega⟩

theorem buildSorted_duplicates {s : List Record} {x : Record}
    (hlast : s.getLast?.map Record.ID = some ((s.length : Int) - 1))
    (hroot : s.filter (fun r => r.ID == r.Parent) = [⟨0, 0⟩])
    (hpar : ∀ x ∈ s, x.ID ≠ x.Parent → x.Parent < x.ID ∧ ∃ y ∈ s, y.ID = x.Parent)
    (hdup : 2 ≤ s.count x) : ∃ n, buildSorted s = some (n, some .duplicates) := by
  have hB := buildSorted_after_checks hlast hroot
  obtain ⟨⟨n, res⟩, hres⟩ := marshalChildren_total (.mk 0 [])
    (s.filter (fun r => !(r.ID == r.Parent)))
  rw [hres] at hB
  cases res with
  | error e =>
    have he : e = .duplicates := by
      refine marshalChildrenFuel_error_duplicates _ _ _ _ _ ?_ hres
      intro y hy
      obtain ⟨hys, hyp⟩ := List.mem_filter.1 hy
      exact le_of_lt (hpar y hys (by simpa using hyp)).1
    subst he
    exact ⟨some n, hB⟩
  | ok L =>
    have hL := marshalChildren_root_leftover_nil hroot hpar hres
    subst hL
    simp only [List.length_nil, gt_iff_lt, lt_self_iff_false, if_false] at hB
    have := buildSorted_ok_count_le_one hB x
    omega

/-- C11 as stated fails: in `[{0,0},{1,0},{1,0}]` two records share ID 1 and Parent 0,
and `Build` fails with the non-contiguous-ID error, because the largest ID (1) is not
`n-1` (2) and that check runs first. -/
theorem Build_duplicates_reported_as_non_contiguous :
    [(⟨0, 0⟩ : Record), ⟨1, 0⟩, ⟨1, 0⟩][1]? = some ⟨1, 0⟩ ∧
      [(⟨0, 0⟩ : Record), ⟨1, 0⟩, ⟨1, 0⟩][2]? = some ⟨1, 0⟩ ∧
      Build [⟨0, 0⟩, ⟨1, 0⟩, ⟨1, 0⟩] = some (none, some .nonContiguous) ∧
      ¬ ∃ n, Build [⟨0, 0⟩, ⟨1, 0⟩, ⟨1, 0⟩] = some (n, some .duplicates) := by
  refine ⟨rfl, rfl, rfl, ?_⟩
  rintro ⟨n, hn⟩
  have h : Build [⟨0, 0⟩, ⟨1, 0⟩, ⟨1, 0⟩] = some (none, some .nonContiguous) := rfl
  rw [h] at hn
  exact absurd hn (by simp)

/-- C11, amended: for every input of length `n` whose largest ID is `n-1`, in which
exactly one record has `ID == Parent`, namely `{0,0}`, in which every other record has
`Parent < ID` and a Parent that is the ID of some record of the input, and in which two
records (at different positions) share the same ID and the same Parent, the error
`Build` returns is the duplicate-ID error "duplicates detected". -/
theorem Build_reports_duplicates (r : List Record) (i j : Nat) (a b : Record)
    (hmax : IsLargestID r ((r.length : Int) - 1))
    (hroot : r.filter (fun x => x.ID == x.Parent) = [⟨0, 0⟩])
    (hpar : ∀ x ∈ r, x.ID ≠ x.Parent → x.Parent < x.ID ∧ ∃ y ∈ r, y.ID = x.Parent)
    (hij : i ≠ j) (hi : r[i]? = some a) (hj : r[j]? = some b)
    (hID : a.ID = b.ID) (hParent : a.Parent = b.Parent) :
    ∃ n, Build r = some (n, some .duplicates) := by
  have hab : a = b := by
    cases a; cases b; simp only at hID hParent; simp [hID, hParent]
  subst hab
  have hnd : ¬ r.Nodup := by
    intro hnd
    rw [List.nodup_iff_getElem?_ne_getElem?] at hnd
    have hlen : ∀ k, r[k]? = some a → k < r.length := by
      intro k hk
      by_contra hlt
      rw [List.getElem?_eq_none (by omega)] at hk
      exact absurd hk (by simp)
    rcases Nat.lt_or_gt_of_ne hij with hlt | hlt
    · exact hnd i j hlt (hlen j hj) (hi.trans hj.symm)
    · exact hnd j i hlt (hlen i hi) (hj.trans hi.symm)
  obtain ⟨x, hx⟩ := List.exists_duplicate_iff_not_nodup.2 hnd
  have hcount : 2 ≤ r.count x := List.duplicate_iff_two_le_count.1 hx
  have hne : r ≠ [] := by
    intro h0; subst h0; simp at hcount
  have hp := sortRecords_perm r
  rw [Build_nonempty hne]
  apply buildSorted_duplicates (x := x)
  · rw [sorted_getLast_iff (sortRecords_sorted r), hp.length_eq]
    exact hmax.congr_perm hp
  · have := hp.filter (fun x => x.ID == x.Parent)
    rw [hroot] at this
    exact List.perm_singleton.1 this
  · intro y hy hne
    obtain ⟨hlt, z, hz, hzy⟩ := hpar y (hp.mem_iff.1 hy) hne
    exact ⟨hlt, z, hp.mem_iff.2 hz, hzy⟩
  · rw [hp.count_eq]
    exact hcount

/-- Witness of the amended C11: the largest ID is 3, `{0,0}` is the only self-parented
record, and the two `{1,0}` records meet under the root. -/
theorem Build_reports_duplicates_witness :
    (IsLargestID [⟨0, 0⟩, ⟨1, 0⟩, ⟨1, 0⟩, ⟨3, 0⟩]
        (([(⟨0, 0⟩ : Record), ⟨1, 0⟩, ⟨1, 0⟩, ⟨3, 0⟩].length : Int) - 1) ∧
      [(⟨0, 0⟩ : Record), ⟨1, 0⟩, ⟨1, 0⟩, ⟨3, 0⟩].filter (fun x => x.ID == x.Parent)
        = [⟨0, 0⟩] ∧
      (∀ x ∈ [(⟨0, 0⟩ : Record), ⟨1, 0⟩, ⟨1, 0⟩, ⟨3, 0⟩], x.ID ≠ x.Parent →
        x.Parent < x.ID ∧
          ∃ y ∈ [(⟨0, 0⟩ : Record), ⟨1, 0⟩, ⟨1, 0⟩, ⟨3, 0⟩], y.ID = x.Parent) ∧
      [(⟨0, 0⟩ : Record), ⟨1, 0⟩, ⟨1, 0⟩, ⟨3, 0⟩][1]? = some ⟨1, 0⟩ ∧
      [(⟨0, 0⟩ : Record), ⟨1, 0⟩, ⟨1, 0⟩, ⟨3, 0⟩][2]? = some ⟨1, 0⟩) ∧
      ∃ n, Build [⟨0, 0⟩, ⟨1, 0⟩, ⟨1, 0⟩, ⟨3, 0⟩] = some (n, some .duplicates) :=
  ⟨⟨by decide, by decide, by decide, rfl, rfl⟩,
    Build_reports_duplicates [⟨0, 0⟩, ⟨1, 0⟩, ⟨1, 0⟩, ⟨3, 0⟩] 1 2 ⟨1, 0⟩ ⟨1, 0⟩
      (by decide) (by decide) (by decide) (by decide) rfl rfl rfl rfl⟩

end TreeBuilding

